import Mathlib

/-!
Verification of the two batch scripts of this repository:
  src/auth-service/scripts/update_imports.py      (the import rewriter)
  src/auth-service/scripts/migrate_to_modules.py  (the relocator)

File contents are embedded as `List Char`.  The only regular expressions the
scripts use are of two fixed shapes:
  re.sub(f"import\\s+{re.escape(lit)};", rep, content)           (rewriter)
  re.sub(r"^package\\s+com\\.demo\\.auth\\.[^;]+;", rep, content,
         flags=re.MULTILINE)                                     (relocator)
Both are modelled by deterministic left-to-right scanners.  For the rewriter
shape the escaped literal always starts with a non-space character, so the
greedy backtracking semantics of `\s+` coincides with maximal-munch: consume
"import", then a maximal nonempty run of whitespace, then the literal, then
the semicolon.  `\s` is modelled by its ASCII cases (the file contents the
scripts touch are ASCII).  `re.sub` replaces every non-overlapping match,
scanning left to right and resuming after the replaced span, never rescanning
the replacement; the substitution functions below do exactly that, with a
fuel argument (the length of the input) so that they are structural and
compute inside the kernel.
-/

/-- The ASCII cases of Python's `\s` character class. -/
def isPyspace (c : Char) : Bool :=
  c == ' ' || c == '\t' || c == '\n' || c == '\r' || c == '\x0b' || c == '\x0c'

/-- State of the scanner for the pattern `import\s+PAT` (where `PAT` already
ends with the terminating semicolon): the remaining characters of "import"
(`imp []` is the state expecting the first mandatory whitespace), the state
inside the whitespace run (`sp1`), or the remaining characters of the
pattern literal (`litp`). -/
inductive MState where
  | imp : List Char → MState
  | sp1 : MState
  | litp : List Char → MState
deriving DecidableEq, Repr

/-- One step of the scanner: definite failure, completion of the whole
pattern, or transition to a next state. -/
inductive MStep where
  | fail : MStep
  | complete : MStep
  | next : MState → MStep
deriving DecidableEq, Repr

/-- Outcome of running the scanner on a string: definite failure, end of
input while still alive, or completed match with the rest of the input. -/
inductive MRes where
  | fail : MRes
  | more : MState → MRes
  | done : List Char → MRes
deriving DecidableEq, Repr

/-- Compare the next input character against the remaining literal. -/
def litStep (rem : List Char) (c : Char) : MStep :=
  match rem with
  | [] => .fail
  | [d] => if c = d then .complete else .fail
  | d :: ds => if c = d then .next (.litp ds) else .fail

/-- Transition function of the scanner for `import\s+pat`. -/
def mstep (pat : List Char) (σ : MState) (c : Char) : MStep :=
  match σ with
  | .imp [] => if isPyspace c then .next .sp1 else .fail
  | .imp (d :: ds) => if c = d then .next (.imp ds) else .fail
  | .sp1 => if isPyspace c then .next .sp1 else litStep pat c
  | .litp rem => litStep rem c

/-- Run the scanner from state `σ` over the input. -/
def runM (pat : List Char) (σ : MState) : List Char → MRes
  | [] => .more σ
  | c :: cs =>
    match mstep pat σ c with
    | .fail => .fail
    | .complete => .done cs
    | .next σ2 => runM pat σ2 cs

def impStr : List Char := "import".toList

/-- Match of `import\s+pat` at the start of `s` (the pattern literal `pat`
already carries its final semicolon); returns the rest after the match. -/
def matchImport (pat : List Char) (s : List Char) : Option (List Char) :=
  match runM pat (.imp impStr) s with
  | .done r => some r
  | _ => none

/-- Does `import\s+pat` match at any position of the input? -/
def hasMatch (pat : List Char) : List Char → Bool
  | [] => false
  | c :: cs => (matchImport pat (c :: cs)).isSome || hasMatch pat cs

/-- `re.sub` for the pattern `import\s+pat`, replacement text `rep`:
left-to-right scan, replace each match, resume after the match.  The fuel is
an upper bound on the input length. -/
def subImportF (pat rep : List Char) : Nat → List Char → List Char
  | 0, s => s
  | _ + 1, [] => []
  | fuel + 1, c :: cs =>
    match matchImport pat (c :: cs) with
    | some r => rep ++ subImportF pat rep fuel r
    | none => c :: subImportF pat rep fuel cs

def subImport (pat rep : List Char) (s : List Char) : List Char :=
  subImportF pat rep s.length s

/-- `IMPORT_MAPPINGS` of update_imports.py, in source (insertion) order:
old fully-qualified import → new fully-qualified import. -/
def IMPORT_MAPPINGS : List (String × String) := [
  ("com.demo.auth.entity.User", "com.demo.auth.modules.user.entity.User"),
  ("com.demo.auth.entity.Role", "com.demo.auth.modules.role.entity.Role"),
  ("com.demo.auth.entity.RoleType", "com.demo.auth.modules.role.entity.RoleType"),
  ("com.demo.auth.entity.Permission", "com.demo.auth.modules.permission.entity.Permission"),
  ("com.demo.auth.entity.RolePermission", "com.demo.auth.modules.permission.entity.RolePermission"),
  ("com.demo.auth.repository.UserRepository", "com.demo.auth.modules.user.repository.UserRepository"),
  ("com.demo.auth.repository.RoleRepository", "com.demo.auth.modules.role.repository.RoleRepository"),
  ("com.demo.auth.service.UserService", "com.demo.auth.modules.user.service.UserService"),
  ("com.demo.auth.service.UserDetailsServiceImpl", "com.demo.auth.modules.user.service.UserDetailsServiceImpl"),
  ("com.demo.auth.service.UserRegistrationService", "com.demo.auth.modules.user.service.UserRegistrationService"),
  ("com.demo.auth.service.AuthenticationService", "com.demo.auth.modules.authentication.service.AuthenticationService"),
  ("com.demo.auth.service.JwtService", "com.demo.auth.modules.authentication.service.JwtService"),
  ("com.demo.auth.service.StatelessRefreshTokenService", "com.demo.auth.modules.authentication.service.StatelessRefreshTokenService"),
  ("com.demo.auth.service.RoleService", "com.demo.auth.modules.role.service.RoleService"),
  ("com.demo.auth.controller.UserController", "com.demo.auth.modules.user.controller.UserController"),
  ("com.demo.auth.controller.RegistrationController", "com.demo.auth.modules.user.controller.RegistrationController"),
  ("com.demo.auth.controller.AuthController", "com.demo.auth.modules.authentication.controller.AuthenticationController"),
  ("com.demo.auth.service.dto.UserInfoDto", "com.demo.auth.modules.user.dto.response.UserInfoDto"),
  ("com.demo.auth.dto.UserDTO", "com.demo.auth.modules.user.dto.response.UserDTO"),
  ("com.demo.auth.dto.RegistrationRequestDto", "com.demo.auth.modules.user.dto.request.RegistrationRequestDto"),
  ("com.demo.auth.dto.RegistrationResponseDto", "com.demo.auth.modules.user.dto.response.RegistrationResponseDto"),
  ("com.demo.auth.service.dto.RefreshTokenRequestDto", "com.demo.auth.modules.authentication.dto.request.RefreshTokenRequestDto"),
  ("com.demo.auth.dto.LoginRequestDto", "com.demo.auth.modules.authentication.dto.request.LoginRequestDto"),
  ("com.demo.auth.dto.AuthenticationRequestDto", "com.demo.auth.modules.authentication.dto.request.AuthenticationRequestDto"),
  ("com.demo.auth.dto.AuthenticationResponseDto", "com.demo.auth.modules.authentication.dto.response.AuthenticationResponseDto"),
  ("com.demo.auth.mapper.UserMapper", "com.demo.auth.modules.user.mapper.UserMapper"),
  ("com.demo.auth.mapper.UserDtoMapper", "com.demo.auth.modules.user.mapper.UserDtoMapper"),
  ("com.demo.auth.security.custom.CustomJwtConfig", "com.demo.auth.modules.authentication.security.jwt.custom.CustomJwtConfig"),
  ("com.demo.auth.security.custom.CustomJwtAuthenticationProvider", "com.demo.auth.modules.authentication.security.jwt.custom.CustomJwtAuthenticationProvider"),
  ("com.demo.auth.security.custom.CustomJwtAuthenticationToken", "com.demo.auth.modules.authentication.security.jwt.custom.CustomJwtAuthenticationToken"),
  ("com.demo.auth.security.custom.CustomJwtValidationService", "com.demo.auth.modules.authentication.security.jwt.custom.CustomJwtValidationService"),
  ("com.demo.auth.security.keycloak.KeycloakJwtConfig", "com.demo.auth.modules.authentication.security.jwt.keycloak.KeycloakJwtConfig"),
  ("com.demo.auth.security.keycloak.KeycloakJwtAuthenticationProvider", "com.demo.auth.modules.authentication.security.jwt.keycloak.KeycloakJwtAuthenticationProvider"),
  ("com.demo.auth.security.keycloak.KeycloakJwtAuthenticationToken", "com.demo.auth.modules.authentication.security.jwt.keycloak.KeycloakJwtAuthenticationToken"),
  ("com.demo.auth.security.keycloak.KeycloakJwtAuthenticationConverter", "com.demo.auth.modules.authentication.security.jwt.keycloak.KeycloakJwtAuthenticationConverter"),
  ("com.demo.auth.security.keycloak.KeycloakTokenValidationService", "com.demo.auth.modules.authentication.security.jwt.keycloak.KeycloakTokenValidationService"),
  ("com.demo.auth.security.keycloak.KeycloakRoleConverter", "com.demo.auth.modules.authentication.security.jwt.keycloak.KeycloakRoleConverter"),
  ("com.demo.auth.security.keycloak.KeycloakProperties", "com.demo.auth.modules.authentication.security.jwt.keycloak.KeycloakProperties"),
  ("com.demo.auth.security.keycloak.KeycloakSecurityAuditLogger", "com.demo.auth.modules.authentication.security.jwt.keycloak.KeycloakSecurityAuditLogger"),
  ("com.demo.auth.security.common.AbstractJwtAuthenticationProvider", "com.demo.auth.modules.authentication.security.jwt.common.AbstractJwtAuthenticationProvider"),
  ("com.demo.auth.security.common.AbstractJwtValidationService", "com.demo.auth.modules.authentication.security.jwt.common.AbstractJwtValidationService"),
  ("com.demo.auth.security.common.JwtAuthenticationToken", "com.demo.auth.modules.authentication.security.jwt.common.JwtAuthenticationToken"),
  ("com.demo.auth.security.common.JwtTokenValidationService", "com.demo.auth.modules.authentication.security.jwt.common.JwtTokenValidationService"),
  ("com.demo.auth.security.common.JwtValidationResult", "com.demo.auth.modules.authentication.security.jwt.common.JwtValidationResult"),
  ("com.demo.auth.security.common.TokenType", "com.demo.auth.modules.authentication.security.jwt.common.TokenType"),
  ("com.demo.auth.security.filters.JwtAuthenticationFilter", "com.demo.auth.modules.authentication.security.filters.JwtAuthenticationFilter"),
  ("com.demo.auth.security.filters.JwtAuthenticationFilterRouting", "com.demo.auth.modules.authentication.security.filters.JwtAuthenticationFilterRouting"),
  ("com.demo.auth.config.ProvidersSecurityConfiguration", "com.demo.auth.common.config.ProvidersSecurityConfiguration"),
  ("com.demo.auth.config.AuthCacheConfiguration", "com.demo.auth.common.config.AuthCacheConfiguration"),
  ("com.demo.auth.config.FallbackJwtConfig", "com.demo.auth.common.config.FallbackJwtConfig"),
  ("com.demo.auth.config.RetryConfiguration", "com.demo.auth.common.config.RetryConfiguration"),
  ("com.demo.auth.service.AuthDatabaseService", "com.demo.auth.common.config.AuthDatabaseService"),
  ("com.demo.auth.service.AuthSecurityService", "com.demo.auth.common.config.AuthSecurityService"),
  ("com.demo.auth.controller.CacheController", "com.demo.auth.common.config.CacheController"),
  ("com.demo.auth.security.SecurityConfigurationFactory", "com.demo.auth.common.security.SecurityConfigurationFactory"),
  ("com.demo.auth.security.SecurityProperties", "com.demo.auth.common.security.SecurityProperties"),
  ("com.demo.auth.security.PasswordEncoderConfig", "com.demo.auth.common.security.PasswordEncoderConfig"),
  ("com.demo.auth.security.RateLimitingConfig", "com.demo.auth.common.security.RateLimitingConfig"),
  ("com.demo.auth.security.SecurityConfiguration", "com.demo.auth.common.security.SecurityConfiguration"),
  ("com.demo.auth.security.CustomBearerTokenAuthenticationEntryPoint", "com.demo.auth.common.security.CustomBearerTokenAuthenticationEntryPoint"),
  ("com.demo.auth.service.AuthCacheService", "com.demo.auth.common.cache.AuthCacheService")]

/-- `old_import.rsplit('.', 1)[0]`: drop the last dot-separated component
(the whole string when there is no dot). -/
def dropLastDot (s : List Char) : List Char :=
  match s.reverse.dropWhile (fun c => decide (c ≠ '.')) with
  | [] => s
  | _ :: t => t.reverse

/-- Pattern literal of the exact-import substitution of a mapping entry:
`re.escape(old_import)` followed by the semicolon. -/
def exactPat (old : String) : List Char := old.toList ++ [';']

/-- Replacement text of the exact-import substitution:
`f"import {new_import};"`. -/
def exactRep (new : String) : List Char := "import ".toList ++ new.toList ++ [';']

/-- Pattern literal of the wildcard substitution:
`re.escape(old_package)` followed by `.*;`. -/
def wildPat (old : String) : List Char := dropLastDot old.toList ++ ['.', '*', ';']

/-- Replacement text of the wildcard substitution:
`f"import {new_package}.*;"`. -/
def wildRep (new : String) : List Char := "import ".toList ++ dropLastDot new.toList ++ ['.', '*', ';']

/-- One iteration of the mapping loop of `update_imports_in_file`
(lines 116-127): the exact substitution, then the wildcard substitution. -/
def applyEntry (s : List Char) (p : String × String) : List Char :=
  subImport (wildPat p.1) (wildRep p.2) (subImport (exactPat p.1) (exactRep p.2) s)

/-- The full text transformation of `update_imports_in_file`: all mapping
entries applied in table order. -/
def update_imports_text (s : List Char) : List Char :=
  IMPORT_MAPPINGS.foldl applyEntry s

/-- The same transformation flattened into the list of its 120 elementary
substitutions (pattern literal with trailing semicolon, replacement text). -/
def subsOf : List (String × String) → List (List Char × List Char)
  | [] => []
  | p :: rest => (exactPat p.1, exactRep p.2) :: (wildPat p.1, wildRep p.2) :: subsOf rest

def allSubs : List (List Char × List Char) := subsOf IMPORT_MAPPINGS

def applyAll (L : List (List Char × List Char)) (s : List Char) : List Char :=
  L.foldl (fun t q => subImport q.1 q.2 t) s

/-- `import {x};` as text. -/
def importStmt (x : String) : List Char := "import ".toList ++ x.toList ++ [';']

/-- `import {p}.*;` as text. -/
def importWildStmt (p : String) : List Char := "import ".toList ++ p.toList ++ ['.', '*', ';']

/-! ### Generic list facts used by the scanner proofs -/

/-- The nonempty suffixes of a list (the list itself included). -/
def tailsNE : List Char → List (List Char)
  | [] => []
  | c :: cs => (c :: cs) :: tailsNE cs

/-- The nonempty proper suffixes of a list (scan positions 1, 2, ...). -/
def propSuffixes (l : List Char) : List (List Char) := tailsNE l.tail

theorem mem_tailsNE {l u : List Char} (i : Nat) (hi : i < l.length) (hu : u = l.drop i) :
    u ∈ tailsNE l := by
  induction l generalizing i u with
  | nil => simp at hi
  | cons c cs ih =>
    cases i with
    | zero => simp [tailsNE, hu]
    | succ j =>
      have : u ∈ tailsNE cs := ih j (by simpa using hi) (by simpa using hu)
      simp [tailsNE, this]

theorem mem_propSuffixes {l u : List Char} (i : Nat) (h1 : 1 ≤ i) (hi : i < l.length)
    (hu : u = l.drop i) : u ∈ propSuffixes l := by
  cases l with
  | nil => simp at hi
  | cons c cs =>
    cases i with
    | zero => omega
    | succ j =>
      exact mem_tailsNE j (by simpa using hi) (by simpa using hu)

/-- A definite character difference in the first `n` positions. -/
def diffWithin : Nat → List Char → List Char → Bool
  | 0, _, _ => false
  | _ + 1, [], _ => false
  | _ + 1, _, [] => false
  | n + 1, x :: xs, y :: ys => decide (x ≠ y) || diffWithin n xs ys

theorem diffWithin_ne {n : Nat} {a b : List Char} (h : diffWithin n a b = true) : a ≠ b := by
  induction n generalizing a b with
  | zero => simp [diffWithin] at h
  | succ m ih =>
    match a, b with
    | [], _ => simp [diffWithin] at h
    | _ :: _, [] => simp [diffWithin] at h
    | x :: xs, y :: ys =>
      simp only [diffWithin, Bool.or_eq_true, decide_eq_true_eq] at h
      intro he
      injection he with h1 h2
      rcases h with h | h
      · exact h h1
      · exact ih h h2

theorem diffWithin_append {n : Nat} {a b : List Char} (e : List Char)
    (h : diffWithin n a b = true) : diffWithin n a (b ++ e) = true := by
  induction n generalizing a b with
  | zero => simp [diffWithin] at h
  | succ m ih =>
    match a, b with
    | [], _ => simp [diffWithin] at h
    | _ :: _, [] => simp [diffWithin] at h
    | x :: xs, y :: ys =>
      simp only [diffWithin, Bool.or_eq_true] at h ⊢
      rcases h with h | h
      · exact Or.inl h
      · exact Or.inr (ih h)

theorem diffWithin_of_take {n : Nat} {a b : List Char} (h : diffWithin n a (b.take n) = true) :
    diffWithin n a b = true := by
  have := diffWithin_append (b.drop n) h
  rwa [List.take_append_drop] at this

theorem getLast?_mem {l : List Char} {x : Char} (h : l.getLast? = some x) : x ∈ l := by
  induction l with
  | nil => simp at h
  | cons c cs ih =>
    cases cs with
    | nil => simp_all [List.getLast?]
    | cons d ds =>
      rw [List.getLast?_cons_cons] at h
      exact List.mem_cons_of_mem _ (ih h)

theorem getLast?_drop_mem {l : List Char} {x : Char} (h : l.getLast? = some x) :
    ∀ i < l.length, x ∈ l.drop i := by
  induction l with
  | nil => simp
  | cons c cs ih =>
    intro i hi
    cases i with
    | zero => simpa using getLast?_mem h
    | succ j =>
      cases cs with
      | nil => simp at hi
      | cons d ds =>
        rw [List.getLast?_cons_cons] at h
        simpa using ih h j (by simpa using hi)

/-! ### Scanner lemmas -/

theorem runM_fail_append {pat : List Char} {σ : MState} {u : List Char} (v : List Char)
    (h : runM pat σ u = .fail) : runM pat σ (u ++ v) = .fail := by
  induction u generalizing σ with
  | nil => simp [runM] at h
  | cons c cs ih =>
    rw [List.cons_append]
    rw [runM] at h ⊢
    cases hstep : mstep pat σ c with
    | fail => rfl
    | complete => simp [hstep] at h
    | next σ2 => simp only [hstep] at h ⊢; exact ih h

theorem runM_imp_advance (pat : List Char) (a u : List Char) :
    runM pat (.imp a) (a ++ u) = runM pat (.imp []) u := by
  induction a with
  | nil => simp
  | cons d ds ih =>
    rw [List.cons_append, runM]
    simp only [mstep, if_pos rfl]
    exact ih

theorem runM_litp_lift_fail {pat rem u : List Char} (common : List Char) (hne : rem ≠ [])
    (h : runM pat (.litp rem) u = .fail) :
    runM pat (.litp (common ++ rem)) (common ++ u) = .fail := by
  induction common with
  | nil => simpa using h
  | cons c cs ih =>
    rw [List.cons_append, List.cons_append, runM]
    have hcsrem : cs ++ rem ≠ [] := by
      intro he
      rcases List.append_eq_nil.mp he with ⟨-, h2⟩
      exact hne h2
    obtain ⟨e, es, hees⟩ := List.exists_cons_of_ne_nil hcsrem
    simp only [mstep, hees, litStep, if_pos rfl]
    rw [← hees]
    exact ih

theorem runM_litp_not_prefix_fail {pat rem u : List Char}
    (h1 : ¬ rem <+: u) (h2 : ¬ u <+: rem) : runM pat (.litp rem) u = .fail := by
  induction u generalizing rem with
  | nil => exact absurd (List.nil_prefix) h2
  | cons c cs ih =>
    match rem with
    | [] => exact absurd (List.nil_prefix) h1
    | [d] =>
      rw [runM]
      have hcd : ¬ c = d := by
        intro he
        exact h1 (by simp [he, List.cons_prefix_cons, List.nil_prefix])
      simp [mstep, litStep, hcd]
    | d :: e :: ds =>
      rw [runM]
      by_cases hcd : c = d
      · subst hcd
        simp only [mstep, litStep, if_pos rfl]
        exact ih (fun hp => h1 (by simpa [List.cons_prefix_cons] using hp))
          (fun hp => h2 (by simpa [List.cons_prefix_cons] using hp))
      · simp [mstep, litStep, hcd]

theorem runM_imp_phase_fail {pat rem u : List Char}
    (hsemi : ';' ∈ u) (hrem : ';' ∉ rem) (h : ¬ rem <+: u) :
    runM pat (.imp rem) u = .fail := by
  induction u generalizing rem with
  | nil => simp at hsemi
  | cons c cs ih =>
    match rem with
    | [] => exact absurd List.nil_prefix h
    | d :: ds =>
      rw [runM]
      by_cases hcd : c = d
      · subst hcd
        simp only [mstep, if_pos rfl]
        have hsemi' : ';' ∈ cs := by
          rcases List.mem_cons.mp hsemi with he | hm
          · exact absurd (List.mem_cons.mpr (Or.inl he)) hrem
          · exact hm
        exact ih hsemi' (fun hm => hrem (List.mem_cons_of_mem _ hm))
          (fun hp => h (by simpa [List.cons_prefix_cons] using hp))
      · simp [mstep, hcd]

theorem runM_done_suffix {pat : List Char} {σ : MState} {s r : List Char}
    (h : runM pat σ s = .done r) : ∃ pre, pre ≠ [] ∧ s = pre ++ r := by
  induction s generalizing σ with
  | nil => simp [runM] at h
  | cons c cs ih =>
    rw [runM] at h
    cases hstep : mstep pat σ c with
    | fail => simp [hstep] at h
    | complete =>
      simp only [hstep, MRes.done.injEq] at h
      exact ⟨[c], by simp, by simp [h]⟩
    | next σ2 =>
      simp only [hstep] at h
      obtain ⟨pre, hpre, heq⟩ := ih h
      exact ⟨c :: pre, by simp, by simp [heq]⟩

theorem runM_sp1_entry {pat : List Char} {c : Char} (cs : List Char)
    (h : isPyspace c = false) :
    runM pat .sp1 (c :: cs) = runM pat (.litp pat) (c :: cs) := by
  rw [runM, runM]
  simp only [mstep, h]
  rfl

theorem runM_litp_selfmatch {pat : List Char} {a : List Char} (t : List Char) (h : a ≠ []) :
    runM pat (.litp a) (a ++ t) = .done t := by
  induction a with
  | nil => exact absurd rfl h
  | cons d ds ih =>
    cases ds with
    | nil =>
      rw [List.cons_append, runM]
      simp [mstep, litStep]
    | cons e es =>
      rw [List.cons_append, runM]
      simp only [mstep, litStep, if_pos rfl]
      exact ih (by simp)

theorem runM_litp_diffWithin_fail (pat : List Char) {n : Nat} {rem u : List Char}
    (t : List Char) (h : diffWithin n rem u = true) :
    runM pat (.litp rem) (u ++ t) = .fail := by
  induction n generalizing rem u with
  | zero => simp [diffWithin] at h
  | succ m ih =>
    match rem, u with
    | [], _ => simp [diffWithin] at h
    | _ :: _, [] => simp [diffWithin] at h
    | x :: xs, y :: ys =>
      simp only [diffWithin, Bool.or_eq_true, decide_eq_true_eq] at h
      rw [List.cons_append, runM]
      by_cases hxy : y = x
      · subst hxy
        rcases h with h | h
        · exact absurd rfl h
        · have hxs : xs ≠ [] := by
            intro he; subst he; cases m <;> simp [diffWithin] at h
          obtain ⟨e, es, hees⟩ := List.exists_cons_of_ne_nil hxs
          simp only [mstep, hees, litStep, if_pos rfl]
          rw [← hees]
          exact ih h
      · match xs with
        | [] => simp [mstep, litStep, hxy]
        | _ :: _ => simp [mstep, litStep, hxy]

theorem diffWithin_no_pref {n : Nat} {a b : List Char} (h : diffWithin n a b = true) :
    ¬ a <+: b ∧ ¬ b <+: a := by
  induction n generalizing a b with
  | zero => simp [diffWithin] at h
  | succ m ih =>
    match a, b with
    | [], _ => simp [diffWithin] at h
    | _ :: _, [] => simp [diffWithin] at h
    | x :: xs, y :: ys =>
      simp only [diffWithin, Bool.or_eq_true, decide_eq_true_eq] at h
      by_cases hxy : x = y
      · subst hxy
        rcases h with h | h
        · exact absurd rfl h
        · obtain ⟨h1, h2⟩ := ih h
          constructor
          · intro hp; exact h1 ((List.cons_prefix_cons.mp hp).2)
          · intro hp; exact h2 ((List.cons_prefix_cons.mp hp).2)
      · constructor
        · intro hp; exact hxy ((List.cons_prefix_cons.mp hp).1)
        · intro hp; exact hxy ((List.cons_prefix_cons.mp hp).1).symm

/-! ### Reachable scanner states -/

/-- The states the scanner can be in while scanning for `import\s+pat`. -/
def Reach (pat : List Char) (σ : MState) : Prop :=
  (∃ k, σ = .imp (impStr.drop k)) ∨ σ = .sp1 ∨ (∃ m, 1 ≤ m ∧ σ = .litp (pat.drop m))

theorem reach_init (pat : List Char) : Reach pat (.imp impStr) := Or.inl ⟨0, rfl⟩

theorem litStep_next_inv {rem : List Char} {c : Char} {σ2 : MState}
    (h : litStep rem c = .next σ2) :
    ∃ d ds, rem = d :: ds ∧ ds ≠ [] ∧ c = d ∧ σ2 = .litp ds := by
  match rem with
  | [] => simp [litStep] at h
  | [d] =>
    by_cases hcd : c = d <;> simp [litStep, hcd] at h
  | d :: e :: ds =>
    by_cases hcd : c = d
    · refine ⟨d, e :: ds, rfl, by simp, hcd, ?_⟩
      simp [litStep, hcd] at h
      exact h.symm
    · simp [litStep, hcd] at h

theorem reach_step {pat : List Char} {σ σ2 : MState} {c : Char}
    (hσ : Reach pat σ) (h : mstep pat σ c = .next σ2) : Reach pat σ2 := by
  rcases hσ with ⟨k, rfl⟩ | rfl | ⟨m, hm, rfl⟩
  · cases hd : impStr.drop k with
    | nil =>
      rw [hd] at h
      rw [show mstep pat (.imp []) c = if isPyspace c then .next .sp1 else .fail from rfl] at h
      by_cases hsp : isPyspace c = true
      · rw [if_pos hsp] at h
        injection h with h
        exact Or.inr (Or.inl h.symm)
      · rw [if_neg hsp] at h
        exact absurd h (by simp)
    | cons d ds =>
      rw [hd] at h
      rw [show mstep pat (.imp (d :: ds)) c = if c = d then .next (.imp ds) else .fail from rfl] at h
      by_cases hcd : c = d
      · rw [if_pos hcd] at h
        injection h with h
        refine Or.inl ⟨k + 1, ?_⟩
        rw [← h, ← List.tail_drop, hd]
        rfl
      · rw [if_neg hcd] at h
        exact absurd h (by simp)
  · rw [show mstep pat .sp1 c = if isPyspace c then .next .sp1 else litStep pat c from rfl] at h
    by_cases hsp : isPyspace c = true
    · rw [if_pos hsp] at h
      injection h with h
      exact Or.inr (Or.inl h.symm)
    · rw [if_neg hsp] at h
      obtain ⟨d, ds, hrem, hds, -, hσ2⟩ := litStep_next_inv h
      refine Or.inr (Or.inr ⟨1, le_refl 1, ?_⟩)
      rw [hσ2, hrem]
      rfl
  · rw [show mstep pat (.litp (pat.drop m)) c = litStep (pat.drop m) c from rfl] at h
    obtain ⟨d, ds, hrem, hds, -, hσ2⟩ := litStep_next_inv h
    refine Or.inr (Or.inr ⟨m + 1, by omega, ?_⟩)
    rw [hσ2, ← List.tail_drop, hrem]
    rfl

/-! ### Matchlessness, identity, and preservation through substitution -/

theorem hasMatch_cons_false {pat : List Char} {c : Char} {cs : List Char}
    (h : hasMatch pat (c :: cs) = false) :
    matchImport pat (c :: cs) = none ∧ hasMatch pat cs = false := by
  rw [hasMatch, Bool.or_eq_false_iff] at h
  exact ⟨Option.not_isSome_iff_eq_none.mp (by simp [h.1]), h.2⟩

theorem matchImport_none_iff {pat s : List Char} :
    matchImport pat s = none ↔ ∀ r, runM pat (.imp impStr) s ≠ .done r := by
  rw [matchImport]
  cases h : runM pat (.imp impStr) s <;> simp

theorem subImportF_id {pat rep : List Char} :
    ∀ {s : List Char}, hasMatch pat s = false → ∀ fuel, subImportF pat rep fuel s = s := by
  intro s
  induction s with
  | nil => intro _ fuel; cases fuel <;> rfl
  | cons c cs ih =>
    intro h fuel
    obtain ⟨h1, h2⟩ := hasMatch_cons_false h
    cases fuel with
    | zero => rfl
    | succ f => simp [subImportF, h1, ih h2 f]

theorem hasMatch_suffix {pat : List Char} :
    ∀ (p : List Char) {r : List Char}, hasMatch pat (p ++ r) = false → hasMatch pat r = false := by
  intro p
  induction p with
  | nil => intro r h; simpa using h
  | cons c cs ih =>
    intro r h
    rw [List.cons_append, hasMatch, Bool.or_eq_false_iff] at h
    exact ih h.2

theorem runSub {patP pat rep : List Char}
    (hrep : ∀ σ, Reach patP σ → runM patP σ rep = .fail) :
    ∀ fuel (s : List Char) (σ : MState), Reach patP σ →
      (∀ r, runM patP σ s ≠ .done r) →
      ∀ r2, runM patP σ (subImportF pat rep fuel s) ≠ .done r2 := by
  intro fuel
  induction fuel with
  | zero => intro s σ _ hnd r2; exact hnd r2
  | succ f ih =>
    intro s σ hσ hnd r2
    cases s with
    | nil => simp [subImportF, runM]
    | cons c cs =>
      cases hm : matchImport pat (c :: cs) with
      | some r =>
        rw [subImportF, hm]
        rw [runM_fail_append _ (hrep σ hσ)]
        simp
      | none =>
        rw [subImportF, hm]
        rw [runM]
        cases hstep : mstep patP σ c with
        | fail => simp
        | complete =>
          exact absurd (by rw [runM, hstep]) (hnd cs)
        | next σ2 =>
          exact ih cs σ2 (reach_step hσ hstep)
            (fun r hr => hnd r (by rw [runM, hstep]; exact hr)) r2

theorem hasMatch_rep_append {patP rep w : List Char}
    (hsuf : ∀ i, i < rep.length → runM patP (.imp impStr) (rep.drop i) = .fail)
    (hw : hasMatch patP w = false) : hasMatch patP (rep ++ w) = false := by
  induction rep with
  | nil => simpa using hw
  | cons r0 rs ih =>
    rw [List.cons_append, hasMatch, Bool.or_eq_false_iff]
    constructor
    · have h0 : runM patP (.imp impStr) (r0 :: rs) = .fail := by
        simpa using hsuf 0 (by simp)
      have : runM patP (.imp impStr) ((r0 :: rs) ++ w) = .fail := runM_fail_append _ h0
      rw [List.cons_append] at this
      simp [matchImport, this]
    · exact ih (fun i hi => by simpa using hsuf (i + 1) (by simpa using Nat.succ_lt_succ hi))

theorem subClean {patP pat rep : List Char}
    (hrep : ∀ σ, Reach patP σ → runM patP σ rep = .fail)
    (hsuf : ∀ i, i < rep.length → runM patP (.imp impStr) (rep.drop i) = .fail) :
    ∀ fuel (s : List Char), s.length ≤ fuel →
      (patP = pat ∨ hasMatch patP s = false) →
      hasMatch patP (subImportF pat rep fuel s) = false := by
  intro fuel
  induction fuel with
  | zero =>
    intro s hlen hcase
    rw [List.length_eq_zero.mp (Nat.le_zero.mp hlen)]
    rfl
  | succ f ih =>
    intro s hlen hcase
    cases s with
    | nil => rfl
    | cons c cs =>
      cases hm : matchImport pat (c :: cs) with
      | some r =>
        rw [subImportF, hm]
        have hdone : runM pat (.imp impStr) (c :: cs) = .done r := by
          rw [matchImport] at hm
          cases hr : runM pat (.imp impStr) (c :: cs) <;> simp [hr] at hm
          simp [hm]
        obtain ⟨pre, hpre, heq⟩ := runM_done_suffix hdone
        have hrlen : r.length ≤ f := by
          have := congrArg List.length heq
          simp [List.length_append] at this
          have hp1 : 1 ≤ pre.length := by
            cases pre with
            | nil => exact absurd rfl hpre
            | cons _ _ => simp
          simp at hlen
          omega
        have hrcase : patP = pat ∨ hasMatch patP r = false := by
          rcases hcase with h | h
          · exact Or.inl h
          · exact Or.inr (hasMatch_suffix pre (heq ▸ h))
        exact hasMatch_rep_append hsuf (ih r hrlen hrcase)
      | none =>
        rw [subImportF, hm]
        rw [hasMatch, Bool.or_eq_false_iff]
        constructor
        · have hnd : ∀ r, runM patP (.imp impStr) (c :: cs) ≠ .done r := by
            rcases hcase with h | h
            · rw [h]; exact matchImport_none_iff.mp hm
            · exact matchImport_none_iff.mp (hasMatch_cons_false h).1
          have := @runSub patP pat rep hrep (f + 1) (c :: cs) (.imp impStr) (reach_init patP) hnd
          rw [subImportF, hm] at this
          have hnone : matchImport patP (c :: subImportF pat rep f cs) = none :=
            matchImport_none_iff.mpr this
          simp [hnone]
        · refine ih cs (by simpa using Nat.le_of_succ_le_succ hlen) ?_
          rcases hcase with h | h
          · exact Or.inl h
          · exact Or.inr (hasMatch_cons_false h).2

/-- The two failure conditions a substitution's replacement text must satisfy
with respect to a scanned pattern. -/
def GoodPair (patP rep : List Char) : Prop :=
  (∀ σ, Reach patP σ → runM patP σ rep = .fail) ∧
  (∀ i, i < rep.length → runM patP (.imp impStr) (rep.drop i) = .fail)

theorem subImport_clean_self {pat rep : List Char} (h : GoodPair pat rep) (s : List Char) :
    hasMatch pat (subImport pat rep s) = false :=
  subClean h.1 h.2 s.length s (le_refl _) (Or.inl rfl)

theorem subImport_preserve {patP pat rep : List Char} (h : GoodPair patP rep) {s : List Char}
    (hs : hasMatch patP s = false) : hasMatch patP (subImport pat rep s) = false :=
  subClean h.1 h.2 s.length s (le_refl _) (Or.inr hs)

theorem applyAll_preserve {patP : List Char} {L : List (List Char × List Char)}
    (hc : ∀ q ∈ L, GoodPair patP q.2) :
    ∀ {s : List Char}, hasMatch patP s = false → hasMatch patP (applyAll L s) = false := by
  induction L with
  | nil => intro s h; simpa [applyAll] using h
  | cons q rest ih =>
    intro s h
    have h1 : hasMatch patP (subImport q.1 q.2 s) = false :=
      subImport_preserve (hc q (by simp)) h
    have : applyAll (q :: rest) s = applyAll rest (subImport q.1 q.2 s) := rfl
    rw [this]
    exact ih (fun p hp => hc p (by simp [hp])) h1

theorem applyAll_clean {L : List (List Char × List Char)}
    (hc : ∀ p ∈ L, ∀ q ∈ L, GoodPair p.1 q.2) :
    ∀ (s : List Char) (p : List Char × List Char), p ∈ L →
      hasMatch p.1 (applyAll L s) = false := by
  induction L with
  | nil => intro s p hp; simp at hp
  | cons q rest ih =>
    intro s p hp
    have hstep : applyAll (q :: rest) s = applyAll rest (subImport q.1 q.2 s) := rfl
    rcases List.mem_cons.mp hp with rfl | hmem
    · rw [hstep]
      exact applyAll_preserve (fun q2 hq2 => hc p hp q2 (by simp [hq2]))
        (subImport_clean_self (hc p hp p hp) s)
    · rw [hstep]
      exact ih (fun a ha b hb => hc a (by simp [ha]) b (by simp [hb]))
        (subImport q.1 q.2 s) p hmem

theorem applyAll_id {L : List (List Char × List Char)} :
    ∀ {s : List Char}, (∀ p ∈ L, hasMatch p.1 s = false) → applyAll L s = s := by
  induction L with
  | nil => intro s _; rfl
  | cons q rest ih =>
    intro s h
    have hstep : applyAll (q :: rest) s = applyAll rest (subImport q.1 q.2 s) := rfl
    have hid : subImport q.1 q.2 s = s := subImportF_id (h q (by simp)) _
    rw [hstep, hid]
    exact ih (fun p hp => h p (by simp [hp]))

theorem foldl_applyEntry_eq (M : List (String × String)) :
    ∀ s, M.foldl applyEntry s = applyAll (subsOf M) s := by
  induction M with
  | nil => intro s; rfl
  | cons p rest ih =>
    intro s
    have h1 : (p :: rest).foldl applyEntry s = rest.foldl applyEntry (applyEntry s p) := rfl
    have h2 : applyAll (subsOf (p :: rest)) s
        = applyAll (subsOf rest)
            (subImport (wildPat p.1) (wildRep p.2) (subImport (exactPat p.1) (exactRep p.2) s)) := rfl
    rw [h1, h2, ih]
    rfl

theorem update_imports_text_eq (s : List Char) :
    update_imports_text s = applyAll allSubs s :=
  foldl_applyEntry_eq IMPORT_MAPPINGS s

/-! ### Sufficient syntactic conditions for `GoodPair`

Every pattern literal of the rewriter is `com.demo.auth.` followed by a
component that differs from both `modules` and `common` within three
characters, and every replacement text is `import com.demo.auth.` followed by
`modules...` or `common...` and a final semicolon.  These cheap per-string
facts imply that the scanner for any pattern fails on any replacement text
from any reachable state and at every position inside it. -/

def cdaStr : List Char := "com.demo.auth.".toList

def icdaStr : List Char := "import com.demo.auth.".toList

def goodPatB (pat : List Char) : Bool :=
  (pat.take 14 == cdaStr) &&
  !(pat.drop 14).isEmpty &&
  diffWithin 3 (pat.drop 14) "mod".toList &&
  diffWithin 3 (pat.drop 14) "com".toList &&
  (propSuffixes pat).all (fun u => diffWithin 3 u "imp".toList)

def goodRepB (rep : List Char) : Bool :=
  (rep.take 21 == icdaStr) &&
  ((rep.drop 21).take 3 == "mod".toList || (rep.drop 21).take 3 == "com".toList) &&
  (rep.getLast? == some ';') &&
  (propSuffixes rep).all (fun u => diffWithin 6 u impStr)

theorem runM_init_header_fail {pat rep : List Char}
    (hpat : pat = cdaStr ++ pat.drop 14)
    (hp4ne : pat.drop 14 ≠ [])
    (hrepeq : rep = icdaStr ++ rep.drop 21)
    (hdiff : diffWithin 3 (pat.drop 14) (rep.drop 21) = true) :
    runM pat (.imp impStr) rep = .fail := by
  have h1 : rep = impStr ++ (' ' :: (cdaStr ++ rep.drop 21)) := by
    rw [hrepeq]; rfl
  rw [h1, runM_imp_advance]
  have hstep : runM pat (.imp []) (' ' :: (cdaStr ++ rep.drop 21))
      = runM pat .sp1 (cdaStr ++ rep.drop 21) := rfl
  rw [hstep]
  have hstep2 : runM pat .sp1 (cdaStr ++ rep.drop 21)
      = runM pat (.litp pat) (cdaStr ++ rep.drop 21) := by
    rw [show cdaStr ++ rep.drop 21 = 'c' :: ("om.demo.auth.".toList ++ rep.drop 21) from rfl]
    exact runM_sp1_entry _ (by decide)
  rw [hstep2]
  have hfail : runM (cdaStr ++ pat.drop 14) (.litp (pat.drop 14)) (rep.drop 21) = .fail := by
    have := runM_litp_diffWithin_fail (cdaStr ++ pat.drop 14) [] hdiff
    rwa [List.append_nil] at this
  conv_lhs => rw [hpat]
  exact runM_litp_lift_fail cdaStr hp4ne hfail

theorem goodPair_of_bools {pat rep : List Char}
    (hp : goodPatB pat = true) (hr : goodRepB rep = true) : GoodPair pat rep := by
  rw [goodPatB] at hp
  simp only [Bool.and_eq_true, beq_iff_eq, Bool.not_eq_true', List.all_eq_true] at hp
  obtain ⟨⟨⟨⟨htake14, hp4e⟩, hdmod⟩, hdcom⟩, hsufp⟩ := hp
  have hp4ne : pat.drop 14 ≠ [] := by
    intro h; rw [h] at hp4e; simp at hp4e
  rw [goodRepB] at hr
  simp only [Bool.and_eq_true, Bool.or_eq_true, beq_iff_eq, List.all_eq_true] at hr
  obtain ⟨⟨⟨htake21, hmodcom⟩, hlast⟩, hsufr⟩ := hr
  have hpat : pat = cdaStr ++ pat.drop 14 := by
    conv_lhs => rw [← List.take_append_drop 14 pat]
    rw [htake14]
  have hrepeq : rep = icdaStr ++ rep.drop 21 := by
    conv_lhs => rw [← List.take_append_drop 21 rep]
    rw [htake21]
  have hrep_cons : rep = 'i' :: ("mport com.demo.auth.".toList ++ rep.drop 21) := by
    rw [hrepeq]; rfl
  have hdiff : diffWithin 3 (pat.drop 14) (rep.drop 21) = true := by
    rcases hmodcom with hmc | hmc
    · exact diffWithin_of_take (by rw [hmc]; exact hdmod)
    · exact diffWithin_of_take (by rw [hmc]; exact hdcom)
  have hinit : runM pat (.imp impStr) rep = .fail :=
    runM_init_header_fail hpat hp4ne hrepeq hdiff
  have hreptake3 : rep.take 3 = "imp".toList := by
    rw [hrepeq]; rfl
  constructor
  · intro σ hσ
    rcases hσ with ⟨k, rfl⟩ | rfl | ⟨m, hm, rfl⟩
    · by_cases hk : k < 6
      · interval_cases k
        · exact hinit
        · rw [hrep_cons]; rfl
        · rw [hrep_cons]; rfl
        · rw [hrep_cons]; rfl
        · rw [hrep_cons]; rfl
        · rw [hrep_cons]; rfl
      · have hnil : impStr.drop k = [] := by
          have hlen : (impStr.drop k).length = 0 := by
            rw [List.length_drop]
            rw [show impStr.length = 6 from rfl]
            omega
          exact List.eq_nil_of_length_eq_zero hlen
        rw [hnil, hrep_cons]
        rfl
    · rw [hrep_cons]
      conv_lhs => rw [hpat]
      rfl
    · by_cases hml : m < pat.length
      · have hmem := mem_propSuffixes m hm hml rfl
        have hd3 := hsufp _ hmem
        have hdrep : diffWithin 3 (pat.drop m) rep = true :=
          diffWithin_of_take (by rw [hreptake3]; exact hd3)
        have := runM_litp_diffWithin_fail pat [] hdrep
        rwa [List.append_nil] at this
      · have hnil : pat.drop m = [] := by
          have hlen : (pat.drop m).length = 0 := by
            rw [List.length_drop]; omega
          exact List.eq_nil_of_length_eq_zero hlen
        rw [hnil, hrep_cons]
        rfl
  · intro i hi
    cases i with
    | zero => simpa using hinit
    | succ j =>
      have hmem := mem_propSuffixes (j + 1) (by omega) hi rfl
      have hd6 := hsufr _ hmem
      have hsemi : ';' ∈ rep.drop (j + 1) := getLast?_drop_mem hlast (j + 1) hi
      exact runM_imp_phase_fail hsemi (by decide) (diffWithin_no_pref hd6).2

set_option maxRecDepth 40000

/-- Every one of the 122 elementary substitutions satisfies the syntactic
conditions, checked by evaluation over the table. -/
theorem allSubs_goodB : allSubs.all (fun p => goodPatB p.1 && goodRepB p.2) = true := by decide

theorem allSubs_goodPair : ∀ p ∈ allSubs, ∀ q ∈ allSubs, GoodPair p.1 q.2 := by
  intro p hp q hq
  have h := List.all_eq_true.mp allSubs_goodB
  have hp2 := h p hp
  have hq2 := h q hq
  simp only [Bool.and_eq_true] at hp2 hq2
  exact goodPair_of_bools hp2.1 hq2.2

/-- After a full run of the rewriter transformation, no text matches any of
the rewriter's patterns (exact or wildcard) anywhere. -/
theorem update_imports_text_clean (s : List Char) :
    ∀ p ∈ allSubs, hasMatch p.1 (update_imports_text s) = false := by
  rw [update_imports_text_eq]
  exact fun p hp => applyAll_clean allSubs_goodPair s p hp

/-! ### Prefix facts about the statement forms -/

theorem not_mem_head {c x : Char} {xs : List Char} (h : c ∉ x :: xs) (he : x = c) : False :=
  h (by rw [he]; exact List.mem_cons_self _ _)

theorem prefix_semi_eq {a b : List Char} (ha : ';' ∉ a) (hb : ';' ∉ b)
    (h : a ++ [';'] <+: b ++ [';']) : a = b := by
  induction a generalizing b with
  | nil =>
    cases b with
    | nil => rfl
    | cons x xs =>
      rw [List.nil_append, List.cons_append] at h
      exact (not_mem_head hb (List.cons_prefix_cons.mp h).1.symm).elim
  | cons y ys ih =>
    cases b with
    | nil =>
      rw [List.cons_append, List.nil_append] at h
      exact (not_mem_head ha (List.cons_prefix_cons.mp h).1).elim
    | cons x xs =>
      rw [List.cons_append, List.cons_append] at h
      obtain ⟨h1, h2⟩ := List.cons_prefix_cons.mp h
      rw [h1, ih (fun hm => ha (List.mem_cons_of_mem _ hm))
        (fun hm => hb (List.mem_cons_of_mem _ hm)) h2]

theorem not_prefix_star_semi {a b : List Char} (hb : '*' ∉ b) :
    ¬ (a ++ ['.', '*', ';'] <+: b ++ [';']) := by
  intro h
  have hstar : '*' ∈ a ++ ['.', '*', ';'] := by simp
  have := h.subset hstar
  rcases List.mem_append.mp this with hm | hm
  · exact hb hm
  · simp at hm

theorem not_prefix_semi_star {a b : List Char} (ha : ';' ∉ a) (has : '*' ∉ a)
    (hb : ';' ∉ b) (hbs : '*' ∉ b) :
    ¬ (a ++ [';'] <+: b ++ ['.', '*', ';']) := by
  induction a generalizing b with
  | nil =>
    intro h
    cases b with
    | nil =>
      rw [List.nil_append, List.nil_append] at h
      have := (List.cons_prefix_cons.mp h).1
      simp at this
    | cons x xs =>
      rw [List.nil_append, List.cons_append] at h
      exact not_mem_head hb (List.cons_prefix_cons.mp h).1.symm
  | cons y ys ih =>
    intro h
    cases b with
    | nil =>
      rw [List.cons_append, List.nil_append] at h
      obtain ⟨h1, h2⟩ := List.cons_prefix_cons.mp h
      cases ys with
      | nil =>
        rw [List.nil_append] at h2
        have := (List.cons_prefix_cons.mp h2).1
        simp at this
      | cons z zs =>
        rw [List.cons_append] at h2
        obtain ⟨h3, h4⟩ := List.cons_prefix_cons.mp h2
        exact not_mem_head (fun hm => has (List.mem_cons_of_mem _ hm)) h3
    | cons x xs =>
      rw [List.cons_append, List.cons_append] at h
      obtain ⟨h1, h2⟩ := List.cons_prefix_cons.mp h
      exact ih (fun hm => ha (List.mem_cons_of_mem _ hm))
        (fun hm => has (List.mem_cons_of_mem _ hm))
        (fun hm => hb (List.mem_cons_of_mem _ hm))
        (fun hm => hbs (List.mem_cons_of_mem _ hm)) h2

theorem prefix_star_eq {a b : List Char} (ha : '*' ∉ a) (hb : '*' ∉ b)
    (h : a ++ ['.', '*', ';'] <+: b ++ ['.', '*', ';']) : a = b := by
  induction a generalizing b with
  | nil =>
    cases b with
    | nil => rfl
    | cons x xs =>
      rw [List.nil_append, List.cons_append] at h
      obtain ⟨h1, h2⟩ := List.cons_prefix_cons.mp h
      cases xs with
      | nil =>
        rw [List.nil_append] at h2
        have := (List.cons_prefix_cons.mp h2).1
        simp at this
      | cons z zs =>
        rw [List.cons_append] at h2
        exact (not_mem_head (fun hm => hb (List.mem_cons_of_mem _ hm))
          (List.cons_prefix_cons.mp h2).1.symm).elim
  | cons y ys ih =>
    cases b with
    | nil =>
      rw [List.cons_append, List.nil_append] at h
      obtain ⟨h1, h2⟩ := List.cons_prefix_cons.mp h
      cases ys with
      | nil =>
        rw [List.nil_append] at h2
        have := (List.cons_prefix_cons.mp h2).1
        simp at this
      | cons z zs =>
        rw [List.cons_append] at h2
        exact (not_mem_head (fun hm => ha (List.mem_cons_of_mem _ hm))
          (List.cons_prefix_cons.mp h2).1).elim
    | cons x xs =>
      rw [List.cons_append, List.cons_append] at h
      obtain ⟨h1, h2⟩ := List.cons_prefix_cons.mp h
      rw [h1, ih (fun hm => ha (List.mem_cons_of_mem _ hm))
        (fun hm => hb (List.mem_cons_of_mem _ hm)) h2]

/-- Two strings that are `com.demo.auth.` plus a component of the old naming
scheme, respectively plus `modules...` or `common...`, are different. -/
theorem ne_of_class {a b : List Char}
    (hm : diffWithin 3 (a.drop 14) "mod".toList = true)
    (hc : diffWithin 3 (a.drop 14) "com".toList = true)
    (hb : (b.drop 14).take 3 = "mod".toList ∨ (b.drop 14).take 3 = "com".toList) : a ≠ b := by
  intro he
  subst he
  have : diffWithin 3 (a.drop 14) (a.drop 14) = true := by
    rcases hb with hb | hb
    · exact diffWithin_of_take (by rw [hb]; exact hm)
    · exact diffWithin_of_take (by rw [hb]; exact hc)
  exact diffWithin_ne this rfl

/-! ### Matching behaviour on single import statements -/

/-- `import BODY;` where BODY is the dotted reference form. -/
def stmtOf (body : List Char) : List Char := impStr ++ (' ' :: (body ++ [';']))

theorem stmtOf_concat (body : List Char) :
    stmtOf body = (impStr ++ (' ' :: body)) ++ [';'] := by
  rw [stmtOf]
  simp

theorem stmtOf_getLast (body : List Char) : (stmtOf body).getLast? = some ';' := by
  rw [stmtOf_concat]
  exact List.getLast?_concat _

theorem hasMatch_false_of_positions {pat s : List Char}
    (h : ∀ i, i < s.length → ∀ r, runM pat (.imp impStr) (s.drop i) ≠ .done r) :
    hasMatch pat s = false := by
  induction s with
  | nil => rfl
  | cons c cs ih =>
    rw [hasMatch, Bool.or_eq_false_iff]
    constructor
    · have := h 0 (by simp)
      simp only [List.drop_zero] at this
      simp [matchImport_none_iff.mpr this]
    · exact ih (fun i hi => by simpa using h (i + 1) (by simpa using Nat.succ_lt_succ hi))

theorem hasMatch_stmt_false {pat body : List Char}
    (hhead : ∃ bt, body = 'c' :: bt)
    (hsuf : ∀ u ∈ propSuffixes (stmtOf body), diffWithin 6 u impStr = true)
    (hnp1 : ¬ pat <+: body ++ [';'])
    (hnp2 : ¬ body ++ [';'] <+: pat) :
    hasMatch pat (stmtOf body) = false := by
  apply hasMatch_false_of_positions
  intro i hi r
  cases i with
  | zero =>
    simp only [List.drop_zero]
    rw [stmtOf, runM_imp_advance]
    have h1 : runM pat (.imp []) (' ' :: (body ++ [';'])) = runM pat .sp1 (body ++ [';']) := rfl
    rw [h1]
    obtain ⟨bt, rfl⟩ := hhead
    rw [List.cons_append, runM_sp1_entry _ (by decide), ← List.cons_append]
    rw [runM_litp_not_prefix_fail hnp1 hnp2]
    simp
  | succ j =>
    have hmem := mem_propSuffixes (j + 1) (by omega) hi rfl
    have hd6 := hsuf _ hmem
    have hsemi : ';' ∈ (stmtOf body).drop (j + 1) :=
      getLast?_drop_mem (stmtOf_getLast body) (j + 1) hi
    rw [runM_imp_phase_fail hsemi (by decide) (diffWithin_no_pref hd6).2]
    simp

theorem subImport_of_match_empty {pat rep s : List Char}
    (h : matchImport pat s = some []) (hs : s ≠ []) : subImport pat rep s = rep := by
  cases s with
  | nil => exact absurd rfl hs
  | cons c cs =>
    rw [subImport, List.length_cons, subImportF, h]
    cases cs.length <;> simp [subImportF]

theorem matchImport_stmt (body : List Char) (hhead : ∃ bt, body = 'c' :: bt) :
    matchImport (body ++ [';']) (stmtOf body) = some [] := by
  have hrun : runM (body ++ [';']) (.imp impStr) (stmtOf body) = .done [] := by
    rw [stmtOf, runM_imp_advance]
    have h1 : runM (body ++ [';']) (.imp []) (' ' :: (body ++ [';']))
        = runM (body ++ [';']) .sp1 (body ++ [';']) := rfl
    rw [h1]
    obtain ⟨bt, rfl⟩ := hhead
    rw [List.cons_append, runM_sp1_entry _ (by decide), ← List.cons_append]
    have h2 := @runM_litp_selfmatch (('c' :: bt) ++ [';']) (('c' :: bt) ++ [';']) []
      (show ('c' :: bt) ++ [';'] ≠ [] by simp)
    rwa [List.append_nil] at h2
  rw [matchImport, hrun]

theorem subImport_stmt_match (body rep : List Char) (hhead : ∃ bt, body = 'c' :: bt) :
    subImport (body ++ [';']) rep (stmtOf body) = rep :=
  subImport_of_match_empty (matchImport_stmt body hhead) (by rw [stmtOf]; simp)

/-! ### Decomposition helpers for the mapping table -/

theorem find?_decomp {α : Type} (p : α → Bool) :
    ∀ (l : List α) (a : α), l.find? p = some a →
      ∃ m₁ m₂, l = m₁ ++ a :: m₂ ∧ (∀ x ∈ m₁, p x = false) ∧ p a = true := by
  intro l
  induction l with
  | nil => intro a h; simp at h
  | cons x xs ih =>
    intro a h
    by_cases hx : p x = true
    · rw [List.find?_cons_of_pos _ hx] at h
      injection h with h
      exact ⟨[], xs, by simp [h], by simp, h ▸ hx⟩
    · rw [List.find?_cons_of_neg _ (by simpa using hx)] at h
      obtain ⟨m₁, m₂, he, hall, hpa⟩ := ih a h
      refine ⟨x :: m₁, m₂, by simp [he], ?_, hpa⟩
      intro y hy
      rcases List.mem_cons.mp hy with rfl | hy
      · simpa using hx
      · exact hall y hy

theorem find?_eq_some_of_mem {α : Type} (p : α → Bool) :
    ∀ (l : List α) (x : α), x ∈ l → p x = true → ∃ a, l.find? p = some a := by
  intro l
  induction l with
  | nil => intro x hx; simp at hx
  | cons y ys ih =>
    intro x hx hp
    by_cases hy : p y = true
    · exact ⟨y, List.find?_cons_of_pos _ hy⟩
    · rcases List.mem_cons.mp hx with rfl | hx
      · exact absurd hp hy
      · obtain ⟨a, ha⟩ := ih x hx hp
        exact ⟨a, by rw [List.find?_cons_of_neg _ (by simpa using hy)]; exact ha⟩

theorem subsOf_append : ∀ (m₁ m₂ : List (String × String)),
    subsOf (m₁ ++ m₂) = subsOf m₁ ++ subsOf m₂ := by
  intro m₁ m₂
  induction m₁ with
  | nil => rfl
  | cons p rest ih => simp [subsOf, ih]

theorem mem_subsOf {q : List Char × List Char} :
    ∀ {M : List (String × String)}, q ∈ subsOf M →
      ∃ k ∈ M, q = (exactPat k.1, exactRep k.2) ∨ q = (wildPat k.1, wildRep k.2) := by
  intro M
  induction M with
  | nil => intro h; simp [subsOf] at h
  | cons p rest ih =>
    intro h
    rw [subsOf] at h
    rcases List.mem_cons.mp h with rfl | h
    · exact ⟨p, by simp, Or.inl rfl⟩
    · rcases List.mem_cons.mp h with rfl | h
      · exact ⟨p, by simp, Or.inr rfl⟩
      · obtain ⟨k, hk, hq⟩ := ih h
        exact ⟨k, by simp [hk], hq⟩

theorem applyAll_append (L₁ L₂ : List (List Char × List Char)) (s : List Char) :
    applyAll (L₁ ++ L₂) s = applyAll L₂ (applyAll L₁ s) := by
  rw [applyAll, applyAll, applyAll, List.foldl_append]

/-! ### Per-entry facts of the mapping table -/

theorem mem_dropLastDot {x : Char} {s : List Char} (h : x ∈ dropLastDot s) : x ∈ s := by
  rw [dropLastDot] at h
  cases hd : s.reverse.dropWhile (fun c => decide (c ≠ '.')) with
  | nil => rwa [hd] at h
  | cons y t =>
    rw [hd] at h
    have h1 : x ∈ t := List.mem_reverse.mp h
    have h2 : x ∈ y :: t := List.mem_cons_of_mem _ h1
    rw [← hd] at h2
    have h3 : x ∈ s.reverse := (List.dropWhile_sublist _).subset h2
    exact List.mem_reverse.mp h3

theorem head_c_of_take14 {l : List Char} (h : l.take 14 = cdaStr) : ∃ t, l = 'c' :: t := by
  refine ⟨"om.demo.auth.".toList ++ l.drop 14, ?_⟩
  conv_lhs => rw [← List.take_append_drop 14 l]
  rw [h]
  rfl

theorem head_c_wild_of_take14 {l : List Char} (h : l.take 14 = cdaStr) :
    ∃ t, l ++ ['.', '*'] = 'c' :: t := by
  obtain ⟨t, ht⟩ := head_c_of_take14 h
  exact ⟨t ++ ['.', '*'], by rw [ht]; rfl⟩

/-- The facts about one mapping entry that the rewrite proofs use. -/
structure EntryFacts (p : String × String) : Prop where
  oldSemi : ';' ∉ p.1.toList
  oldStar : '*' ∉ p.1.toList
  newSemi : ';' ∉ p.2.toList
  newStar : '*' ∉ p.2.toList
  oldTake : p.1.toList.take 14 = cdaStr
  newTake : p.2.toList.take 14 = cdaStr
  opkTake : (dropLastDot p.1.toList).take 14 = cdaStr
  npkTake : (dropLastDot p.2.toList).take 14 = cdaStr
  oldMod : diffWithin 3 (p.1.toList.drop 14) "mod".toList = true
  oldCom : diffWithin 3 (p.1.toList.drop 14) "com".toList = true
  opkMod : diffWithin 3 ((dropLastDot p.1.toList).drop 14) "mod".toList = true
  opkCom : diffWithin 3 ((dropLastDot p.1.toList).drop 14) "com".toList = true
  newClass : (p.2.toList.drop 14).take 3 = "mod".toList ∨ (p.2.toList.drop 14).take 3 = "com".toList
  npkClass : ((dropLastDot p.2.toList).drop 14).take 3 = "mod".toList ∨
    ((dropLastDot p.2.toList).drop 14).take 3 = "com".toList
  oldSuf : ∀ u ∈ propSuffixes (stmtOf p.1.toList), diffWithin 6 u impStr = true
  opkSuf : ∀ u ∈ propSuffixes (stmtOf (dropLastDot p.1.toList ++ ['.', '*'])),
    diffWithin 6 u impStr = true

def entryFactsB (p : String × String) : Bool :=
  p.1.toList.all (fun c => decide (c ≠ ';') && decide (c ≠ '*')) &&
  p.2.toList.all (fun c => decide (c ≠ ';') && decide (c ≠ '*')) &&
  (p.1.toList.take 14 == cdaStr) &&
  (p.2.toList.take 14 == cdaStr) &&
  ((dropLastDot p.1.toList).take 14 == cdaStr) &&
  ((dropLastDot p.2.toList).take 14 == cdaStr) &&
  diffWithin 3 (p.1.toList.drop 14) "mod".toList &&
  diffWithin 3 (p.1.toList.drop 14) "com".toList &&
  diffWithin 3 ((dropLastDot p.1.toList).drop 14) "mod".toList &&
  diffWithin 3 ((dropLastDot p.1.toList).drop 14) "com".toList &&
  ((p.2.toList.drop 14).take 3 == "mod".toList || (p.2.toList.drop 14).take 3 == "com".toList) &&
  (((dropLastDot p.2.toList).drop 14).take 3 == "mod".toList ||
    ((dropLastDot p.2.toList).drop 14).take 3 == "com".toList) &&
  (propSuffixes (stmtOf p.1.toList)).all (fun u => diffWithin 6 u impStr) &&
  (propSuffixes (stmtOf (dropLastDot p.1.toList ++ ['.', '*']))).all
    (fun u => diffWithin 6 u impStr)

theorem entryFacts_of_B {p : String × String} (h : entryFactsB p = true) : EntryFacts p := by
  rw [entryFactsB] at h
  simp only [Bool.and_eq_true, Bool.or_eq_true, beq_iff_eq, List.all_eq_true,
    decide_eq_true_eq] at h
  obtain ⟨⟨⟨⟨⟨⟨⟨⟨⟨⟨⟨⟨⟨h1, h2⟩, h3⟩, h4⟩, h5⟩, h6⟩, h7⟩, h8⟩, h9⟩, h10⟩, h11⟩, h12⟩, h13⟩, h14⟩ := h
  exact {
    oldSemi := fun hm => ((h1 _ hm).1 rfl)
    oldStar := fun hm => ((h1 _ hm).2 rfl)
    newSemi := fun hm => ((h2 _ hm).1 rfl)
    newStar := fun hm => ((h2 _ hm).2 rfl)
    oldTake := h3
    newTake := h4
    opkTake := h5
    npkTake := h6
    oldMod := h7
    oldCom := h8
    opkMod := h9
    opkCom := h10
    newClass := h11
    npkClass := h12
    oldSuf := h13
    opkSuf := h14 }

theorem all_entryFactsB : IMPORT_MAPPINGS.all entryFactsB = true := by decide

theorem all_entry_facts : ∀ p ∈ IMPORT_MAPPINGS, EntryFacts p :=
  fun p hp => entryFacts_of_B (List.all_eq_true.mp all_entryFactsB p hp)

/-! ### No-match facts between table entries and single statements -/

theorem nomatch_exact_on_plain {old body : List Char}
    (hne : old ≠ body) (hop : ';' ∉ old) (hbp : ';' ∉ body)
    (hhead : ∃ bt, body = 'c' :: bt)
    (hsuf : ∀ u ∈ propSuffixes (stmtOf body), diffWithin 6 u impStr = true) :
    hasMatch (old ++ [';']) (stmtOf body) = false :=
  hasMatch_stmt_false hhead hsuf
    (fun hp => hne (prefix_semi_eq hop hbp hp))
    (fun hp => hne (prefix_semi_eq hbp hop hp).symm)

theorem nomatch_wild_on_plain {opk body : List Char}
    (hbsemi : ';' ∉ body) (hbstar : '*' ∉ body) (hosemi : ';' ∉ opk) (hostar : '*' ∉ opk)
    (hhead : ∃ bt, body = 'c' :: bt)
    (hsuf : ∀ u ∈ propSuffixes (stmtOf body), diffWithin 6 u impStr = true) :
    hasMatch (opk ++ ['.', '*', ';']) (stmtOf body) = false :=
  hasMatch_stmt_false hhead hsuf
    (not_prefix_star_semi hbstar)
    (not_prefix_semi_star hbsemi hbstar hosemi hostar)

theorem nomatch_exact_on_wild {old pk : List Char}
    (hop : ';' ∉ old) (hostar : '*' ∉ old) (hpsemi : ';' ∉ pk) (hpstar : '*' ∉ pk)
    (hhead : ∃ bt, pk ++ ['.', '*'] = 'c' :: bt)
    (hsuf : ∀ u ∈ propSuffixes (stmtOf (pk ++ ['.', '*'])), diffWithin 6 u impStr = true) :
    hasMatch (old ++ [';']) (stmtOf (pk ++ ['.', '*'])) = false := by
  apply hasMatch_stmt_false hhead hsuf
  · rw [List.append_assoc]
    exact not_prefix_semi_star hop hostar hpsemi hpstar
  · rw [List.append_assoc]
    exact not_prefix_star_semi hostar

theorem nomatch_wild_on_wild {opk pk : List Char}
    (hne : opk ≠ pk) (hostar : '*' ∉ opk) (hpstar : '*' ∉ pk)
    (hhead : ∃ bt, pk ++ ['.', '*'] = 'c' :: bt)
    (hsuf : ∀ u ∈ propSuffixes (stmtOf (pk ++ ['.', '*'])), diffWithin 6 u impStr = true) :
    hasMatch (opk ++ ['.', '*', ';']) (stmtOf (pk ++ ['.', '*'])) = false := by
  apply hasMatch_stmt_false hhead hsuf
  · rw [List.append_assoc]
    exact fun hp => hne (prefix_star_eq hostar hpstar hp)
  · rw [List.append_assoc]
    exact fun hp => hne (prefix_star_eq hpstar hostar hp).symm

/-! ### The rewriter on single import statements -/

theorem string_toList_inj {s t : String} (h : s.toList = t.toList) : s = t := by
  cases s with
  | mk d =>
    cases t with
    | mk d2 => exact congrArg String.mk (by simpa [String.toList] using h)

theorem keys_nodup : (IMPORT_MAPPINGS.map Prod.fst).Nodup := by decide

theorem exact_mem_subsOf {k : String × String} :
    ∀ {M : List (String × String)}, k ∈ M → (exactPat k.1, exactRep k.2) ∈ subsOf M := by
  intro M
  induction M with
  | nil => intro h; simp at h
  | cons p rest ih =>
    intro h
    rcases List.mem_cons.mp h with rfl | h
    · exact List.mem_cons_self _ _
    · exact List.mem_cons_of_mem _ (List.mem_cons_of_mem _ (ih h))

theorem wild_mem_subsOf {k : String × String} :
    ∀ {M : List (String × String)}, k ∈ M → (wildPat k.1, wildRep k.2) ∈ subsOf M := by
  intro M
  induction M with
  | nil => intro h; simp at h
  | cons p rest ih =>
    intro h
    rcases List.mem_cons.mp h with rfl | h
    · exact List.mem_cons_of_mem _ (List.mem_cons_self _ _)
    · exact List.mem_cons_of_mem _ (List.mem_cons_of_mem _ (ih h))

theorem applyAll_cons (a b : List Char) (L : List (List Char × List Char)) (s : List Char) :
    applyAll ((a, b) :: L) s = applyAll L (subImport a b s) := rfl

theorem exactPat_def (o : String) : exactPat o = o.toList ++ [';'] := rfl

theorem exactRep_eq_stmtOf (n : String) : exactRep n = stmtOf n.toList := rfl

theorem wildPat_assoc (o : String) :
    wildPat o = (dropLastDot o.toList ++ ['.', '*']) ++ [';'] := by
  rw [wildPat, List.append_assoc]
  rfl

theorem imp_space_split : "import ".toList = impStr ++ [' '] := rfl

theorem wildRep_eq_stmtOf (n : String) :
    wildRep n = stmtOf (dropLastDot n.toList ++ ['.', '*']) := by
  rw [wildRep, stmtOf, imp_space_split, List.append_assoc impStr,
    List.append_assoc (dropLastDot n.toList)]
  rfl

theorem goodRep_suffix_facts {rep : List Char} (h : goodRepB rep = true) :
    ∀ u ∈ propSuffixes rep, diffWithin 6 u impStr = true := by
  rw [goodRepB] at h
  simp only [Bool.and_eq_true, Bool.or_eq_true, beq_iff_eq, List.all_eq_true] at h
  exact h.2

/-- Every exact import statement of the table is rewritten, by the full pass,
to the corresponding new import statement. -/
theorem rewrite_exact_all : ∀ p ∈ IMPORT_MAPPINGS,
    update_imports_text (stmtOf p.1.toList) = stmtOf p.2.toList := by
  intro p hp
  have hfp := all_entry_facts p hp
  obtain ⟨m₁, m₂, hsplit⟩ := List.append_of_mem hp
  have hmem1 : ∀ k ∈ m₁, k ∈ IMPORT_MAPPINGS := fun k hk =>
    hsplit ▸ (List.mem_append.mpr (Or.inl hk))
  have hmem2 : ∀ k ∈ m₂, k ∈ IMPORT_MAPPINGS := fun k hk =>
    hsplit ▸ (List.mem_append.mpr (Or.inr (List.mem_cons_of_mem _ hk)))
  have hnodup := keys_nodup
  rw [hsplit, List.map_append, List.map_cons, List.nodup_append] at hnodup
  obtain ⟨hn1, hn2, hdisj⟩ := hnodup
  have hkey1 : ∀ k ∈ m₁, k.1 ≠ p.1 := by
    intro k hk he
    exact hdisj (List.mem_map_of_mem _ hk) (by rw [he]; exact List.mem_cons_self _ _)
  have hheadO : ∃ bt, p.1.toList = 'c' :: bt := head_c_of_take14 hfp.oldTake
  have hsufO := hfp.oldSuf
  have hA : ∀ q ∈ subsOf m₁, hasMatch q.1 (stmtOf p.1.toList) = false := by
    intro q hq
    obtain ⟨k, hk, hcase⟩ := mem_subsOf hq
    have hfk := all_entry_facts k (hmem1 k hk)
    have hne : k.1.toList ≠ p.1.toList := fun h => (hkey1 k hk) (string_toList_inj h)
    rcases hcase with rfl | rfl
    · exact nomatch_exact_on_plain hne hfk.oldSemi hfp.oldSemi hheadO hsufO
    · exact nomatch_wild_on_plain hfp.oldSemi hfp.oldStar
        (fun hm => hfk.oldSemi (mem_dropLastDot hm))
        (fun hm => hfk.oldStar (mem_dropLastDot hm)) hheadO hsufO
  have hheadN : ∃ bt, p.2.toList = 'c' :: bt := head_c_of_take14 hfp.newTake
  have hsufN : ∀ u ∈ propSuffixes (stmtOf p.2.toList), diffWithin 6 u impStr = true := by
    have hmemB : (exactPat p.1, exactRep p.2) ∈ allSubs := exact_mem_subsOf hp
    have hg := List.all_eq_true.mp allSubs_goodB _ hmemB
    simp only [Bool.and_eq_true] at hg
    have := goodRep_suffix_facts hg.2
    rwa [exactRep_eq_stmtOf] at this
  have hC : ∀ q ∈ (wildPat p.1, wildRep p.2) :: subsOf m₂,
      hasMatch q.1 (stmtOf p.2.toList) = false := by
    intro q hq
    rcases List.mem_cons.mp hq with rfl | hq
    · exact nomatch_wild_on_plain hfp.newSemi hfp.newStar
        (fun hm => hfp.oldSemi (mem_dropLastDot hm))
        (fun hm => hfp.oldStar (mem_dropLastDot hm)) hheadN hsufN
    · obtain ⟨k, hk, hcase⟩ := mem_subsOf hq
      have hfk := all_entry_facts k (hmem2 k hk)
      rcases hcase with rfl | rfl
      · exact nomatch_exact_on_plain (ne_of_class hfk.oldMod hfk.oldCom hfp.newClass)
          hfk.oldSemi hfp.newSemi hheadN hsufN
      · exact nomatch_wild_on_plain hfp.newSemi hfp.newStar
          (fun hm => hfk.oldSemi (mem_dropLastDot hm))
          (fun hm => hfk.oldStar (mem_dropLastDot hm)) hheadN hsufN
  have hAS : allSubs = subsOf m₁ ++ ((exactPat p.1, exactRep p.2) ::
      (wildPat p.1, wildRep p.2) :: subsOf m₂) := by
    rw [show allSubs = subsOf IMPORT_MAPPINGS from rfl]
    conv_lhs => rw [hsplit]
    rw [subsOf_append]
    rfl
  rw [update_imports_text_eq, hAS, applyAll_append, applyAll_id hA, applyAll_cons]
  rw [exactPat_def, subImport_stmt_match p.1.toList _ hheadO, exactRep_eq_stmtOf]
  exact applyAll_id hC

/-- `IMPORT_MAPPINGS.find?` on the old package: the first entry of the table
whose old package is the given one.  The wildcard import of a package is
rewritten by this entry. -/
def firstPkgEntry (pk : List Char) : Option (String × String) :=
  IMPORT_MAPPINGS.find? (fun q => dropLastDot q.1.toList == pk)

/-- Every wildcard import of an old package of the table is rewritten, by the
full pass, to the wildcard import of the new package of the FIRST table entry
having that old package. -/
theorem rewrite_wild_all : ∀ p ∈ IMPORT_MAPPINGS, ∃ q,
    q ∈ IMPORT_MAPPINGS ∧
    firstPkgEntry (dropLastDot p.1.toList) = some q ∧
    dropLastDot q.1.toList = dropLastDot p.1.toList ∧
    update_imports_text (stmtOf (dropLastDot p.1.toList ++ ['.', '*'])) =
      stmtOf (dropLastDot q.2.toList ++ ['.', '*']) := by
  intro p hp
  have hfp := all_entry_facts p hp
  obtain ⟨q, hfind⟩ := find?_eq_some_of_mem
    (fun q => dropLastDot q.1.toList == dropLastDot p.1.toList) IMPORT_MAPPINGS p hp (by simp)
  obtain ⟨m₁, m₂, hsplit, hallfalse, hpredq⟩ := find?_decomp _ IMPORT_MAPPINGS q hfind
  have hq : q ∈ IMPORT_MAPPINGS := by
    rw [hsplit]
    exact List.mem_append.mpr (Or.inr (List.mem_cons_self _ _))
  have hfq := all_entry_facts q hq
  have hqpk : dropLastDot q.1.toList = dropLastDot p.1.toList := by simpa using hpredq
  have hmem1 : ∀ k ∈ m₁, k ∈ IMPORT_MAPPINGS := fun k hk =>
    hsplit ▸ (List.mem_append.mpr (Or.inl hk))
  have hmem2 : ∀ k ∈ m₂, k ∈ IMPORT_MAPPINGS := fun k hk =>
    hsplit ▸ (List.mem_append.mpr (Or.inr (List.mem_cons_of_mem _ hk)))
  have hhead0 : ∃ bt, dropLastDot p.1.toList ++ ['.', '*'] = 'c' :: bt :=
    head_c_wild_of_take14 hfp.opkTake
  have hsuf0 := hfp.opkSuf
  have hpsemi : ';' ∉ dropLastDot p.1.toList := fun hm => hfp.oldSemi (mem_dropLastDot hm)
  have hpstar : '*' ∉ dropLastDot p.1.toList := fun hm => hfp.oldStar (mem_dropLastDot hm)
  have hA : ∀ sb ∈ subsOf m₁,
      hasMatch sb.1 (stmtOf (dropLastDot p.1.toList ++ ['.', '*'])) = false := by
    intro sb hsb
    obtain ⟨k, hk, hcase⟩ := mem_subsOf hsb
    have hfk := all_entry_facts k (hmem1 k hk)
    rcases hcase with rfl | rfl
    · exact nomatch_exact_on_wild hfk.oldSemi hfk.oldStar hpsemi hpstar hhead0 hsuf0
    · have hne : dropLastDot k.1.toList ≠ dropLastDot p.1.toList := by
        intro he
        have := hallfalse k hk
        rw [he] at this
        simp at this
      exact nomatch_wild_on_wild hne
        (fun hm => hfk.oldStar (mem_dropLastDot hm)) hpstar hhead0 hsuf0
  have hEx : hasMatch (exactPat q.1) (stmtOf (dropLastDot p.1.toList ++ ['.', '*'])) = false :=
    nomatch_exact_on_wild hfq.oldSemi hfq.oldStar hpsemi hpstar hhead0 hsuf0
  have hheadN : ∃ bt, dropLastDot q.2.toList ++ ['.', '*'] = 'c' :: bt :=
    head_c_wild_of_take14 hfq.npkTake
  have hsufN : ∀ u ∈ propSuffixes (stmtOf (dropLastDot q.2.toList ++ ['.', '*'])),
      diffWithin 6 u impStr = true := by
    have hmemB : (wildPat q.1, wildRep q.2) ∈ allSubs := wild_mem_subsOf hq
    have hg := List.all_eq_true.mp allSubs_goodB _ hmemB
    simp only [Bool.and_eq_true] at hg
    have := goodRep_suffix_facts hg.2
    rwa [wildRep_eq_stmtOf] at this
  have hnsemi : ';' ∉ dropLastDot q.2.toList := fun hm => hfq.newSemi (mem_dropLastDot hm)
  have hnstar : '*' ∉ dropLastDot q.2.toList := fun hm => hfq.newStar (mem_dropLastDot hm)
  have hC : ∀ sb ∈ subsOf m₂,
      hasMatch sb.1 (stmtOf (dropLastDot q.2.toList ++ ['.', '*'])) = false := by
    intro sb hsb
    obtain ⟨k, hk, hcase⟩ := mem_subsOf hsb
    have hfk := all_entry_facts k (hmem2 k hk)
    rcases hcase with rfl | rfl
    · exact nomatch_exact_on_wild hfk.oldSemi hfk.oldStar hnsemi hnstar hheadN hsufN
    · exact nomatch_wild_on_wild (ne_of_class hfk.opkMod hfk.opkCom hfq.npkClass)
        (fun hm => hfk.oldStar (mem_dropLastDot hm)) hnstar hheadN hsufN
  have hAS : allSubs = subsOf m₁ ++ ((exactPat q.1, exactRep q.2) ::
      (wildPat q.1, wildRep q.2) :: subsOf m₂) := by
    rw [show allSubs = subsOf IMPORT_MAPPINGS from rfl]
    conv_lhs => rw [hsplit]
    rw [subsOf_append]
    rfl
  refine ⟨q, hq, hfind, hqpk, ?_⟩
  rw [update_imports_text_eq, hAS, applyAll_append, applyAll_id hA, applyAll_cons]
  rw [show subImport (exactPat q.1) (exactRep q.2)
      (stmtOf (dropLastDot p.1.toList ++ ['.', '*']))
      = stmtOf (dropLastDot p.1.toList ++ ['.', '*']) from subImportF_id hEx _]
  rw [applyAll_cons, wildPat_assoc, hqpk]
  rw [subImport_stmt_match (dropLastDot p.1.toList ++ ['.', '*']) _ hhead0]
  rw [wildRep_eq_stmtOf]
  exact applyAll_id hC

/-! ### The rewriter at file level (update_imports.py, lines 109-156)

A file system is a map from paths to contents; `none` plays the role of an
unreadable file (whose read raises, caught by the `except` block).  `wfail`
models an exception raised by `write_text`, likewise caught; in that case the
function returns `False` and the file keeps its old content. -/

def FS : Type := String → Option (List Char)

def update_imports_in_file (fs : FS) (wfail : String → Bool) (p : String) : FS × Bool :=
  match fs p with
  | none => (fs, false)
  | some content =>
    let content2 := update_imports_text content
    if content2 = content then (fs, false)
    else if wfail p then (fs, false)
    else ((fun q => if q = p then some content2 else fs q), true)

/-- The loop of `main` (lines 145-150): process every file, collecting each
file's updated/not-updated flag. -/
def update_imports_files (wfail : String → Bool) : FS → List String → FS × List Bool
  | fs, [] => (fs, [])
  | fs, f :: rest =>
    let r1 := update_imports_in_file fs wfail f
    let r2 := update_imports_files wfail r1.1 rest
    (r2.1, r1.2 :: r2.2)

/-- `main` of update_imports.py: run over all files and count the updates
(the summary line `Updated imports in {updated_count} files`). -/
def update_imports_main (fs : FS) (wfail : String → Bool) (files : List String) : FS × Nat :=
  let r := update_imports_files wfail fs files
  (r.1, r.2.count true)

theorem update_imports_files_length (wfail : String → Bool) :
    ∀ (files : List String) (fs : FS),
      (update_imports_files wfail fs files).2.length = files.length := by
  intro files
  induction files with
  | nil => intro fs; rfl
  | cons f rest ih =>
    intro fs
    simp [update_imports_files, ih]

theorem count_true_le_length : ∀ (l : List Bool), l.count true ≤ l.length :=
  fun l => List.count_le_length _ _

/-! ### The relocator (migrate_to_modules.py) -/

/-- `MIGRATIONS` of migrate_to_modules.py, in source order:
old relative path → new relative path (relative to BASE_PATH). -/
def MIGRATIONS : List (String × String) := [
  ("entity/User.java", "modules/user/entity/User.java"),
  ("repository/UserRepository.java", "modules/user/repository/UserRepository.java"),
  ("service/UserService.java", "modules/user/service/UserService.java"),
  ("service/UserDetailsServiceImpl.java", "modules/user/service/UserDetailsServiceImpl.java"),
  ("service/UserRegistrationService.java", "modules/user/service/UserRegistrationService.java"),
  ("controller/UserController.java", "modules/user/controller/UserController.java"),
  ("controller/RegistrationController.java", "modules/user/controller/RegistrationController.java"),
  ("mapper/UserMapper.java", "modules/user/mapper/UserMapper.java"),
  ("mapper/UserDtoMapper.java", "modules/user/mapper/UserDtoMapper.java"),
  ("service/dto/UserInfoDto.java", "modules/user/dto/response/UserInfoDto.java"),
  ("dto/UserDTO.java", "modules/user/dto/response/UserDTO.java"),
  ("dto/RegistrationRequestDto.java", "modules/user/dto/request/RegistrationRequestDto.java"),
  ("dto/RegistrationResponseDto.java", "modules/user/dto/response/RegistrationResponseDto.java"),
  ("service/AuthenticationService.java", "modules/authentication/service/AuthenticationService.java"),
  ("service/JwtService.java", "modules/authentication/service/JwtService.java"),
  ("service/StatelessRefreshTokenService.java", "modules/authentication/service/StatelessRefreshTokenService.java"),
  ("controller/AuthController.java", "modules/authentication/controller/AuthenticationController.java"),
  ("dto/LoginRequestDto.java", "modules/authentication/dto/request/LoginRequestDto.java"),
  ("dto/AuthenticationRequestDto.java", "modules/authentication/dto/request/AuthenticationRequestDto.java"),
  ("dto/AuthenticationResponseDto.java", "modules/authentication/dto/response/AuthenticationResponseDto.java"),
  ("service/dto/RefreshTokenRequestDto.java", "modules/authentication/dto/request/RefreshTokenRequestDto.java"),
  ("security/custom/CustomJwtConfig.java", "modules/authentication/security/jwt/custom/CustomJwtConfig.java"),
  ("security/custom/CustomJwtAuthenticationProvider.java", "modules/authentication/security/jwt/custom/CustomJwtAuthenticationProvider.java"),
  ("security/custom/CustomJwtAuthenticationToken.java", "modules/authentication/security/jwt/custom/CustomJwtAuthenticationToken.java"),
  ("security/custom/CustomJwtValidationService.java", "modules/authentication/security/jwt/custom/CustomJwtValidationService.java"),
  ("security/keycloak/KeycloakJwtConfig.java", "modules/authentication/security/jwt/keycloak/KeycloakJwtConfig.java"),
  ("security/keycloak/KeycloakJwtAuthenticationProvider.java", "modules/authentication/security/jwt/keycloak/KeycloakJwtAuthenticationProvider.java"),
  ("security/keycloak/KeycloakJwtAuthenticationToken.java", "modules/authentication/security/jwt/keycloak/KeycloakJwtAuthenticationToken.java"),
  ("security/keycloak/KeycloakJwtAuthenticationConverter.java", "modules/authentication/security/jwt/keycloak/KeycloakJwtAuthenticationConverter.java"),
  ("security/keycloak/KeycloakTokenValidationService.java", "modules/authentication/security/jwt/keycloak/KeycloakTokenValidationService.java"),
  ("security/keycloak/KeycloakRoleConverter.java", "modules/authentication/security/jwt/keycloak/KeycloakRoleConverter.java"),
  ("security/keycloak/KeycloakProperties.java", "modules/authentication/security/jwt/keycloak/KeycloakProperties.java"),
  ("security/keycloak/KeycloakSecurityAuditLogger.java", "modules/authentication/security/jwt/keycloak/KeycloakSecurityAuditLogger.java"),
  ("security/common/AbstractJwtAuthenticationProvider.java", "modules/authentication/security/jwt/common/AbstractJwtAuthenticationProvider.java"),
  ("security/common/AbstractJwtValidationService.java", "modules/authentication/security/jwt/common/AbstractJwtValidationService.java"),
  ("security/common/JwtAuthenticationToken.java", "modules/authentication/security/jwt/common/JwtAuthenticationToken.java"),
  ("security/common/JwtTokenValidationService.java", "modules/authentication/security/jwt/common/JwtTokenValidationService.java"),
  ("security/common/JwtValidationResult.java", "modules/authentication/security/jwt/common/JwtValidationResult.java"),
  ("security/common/TokenType.java", "modules/authentication/security/jwt/common/TokenType.java"),
  ("security/filters/JwtAuthenticationFilter.java", "modules/authentication/security/filters/JwtAuthenticationFilter.java"),
  ("security/filters/JwtAuthenticationFilterRouting.java", "modules/authentication/security/filters/JwtAuthenticationFilterRouting.java"),
  ("entity/Role.java", "modules/role/entity/Role.java"),
  ("entity/RoleType.java", "modules/role/entity/RoleType.java"),
  ("repository/RoleRepository.java", "modules/role/repository/RoleRepository.java"),
  ("service/RoleService.java", "modules/role/service/RoleService.java"),
  ("service/mapper/RoleMapper.java", "modules/role/mapper/RoleMapper.java"),
  ("entity/Permission.java", "modules/permission/entity/Permission.java"),
  ("entity/RolePermission.java", "modules/permission/entity/RolePermission.java"),
  ("config/ProvidersSecurityConfiguration.java", "common/config/ProvidersSecurityConfiguration.java"),
  ("config/AuthCacheConfiguration.java", "common/config/AuthCacheConfiguration.java"),
  ("config/FallbackJwtConfig.java", "common/config/FallbackJwtConfig.java"),
  ("config/RetryConfiguration.java", "common/config/RetryConfiguration.java"),
  ("security/SecurityConfigurationFactory.java", "common/security/SecurityConfigurationFactory.java"),
  ("security/SecurityProperties.java", "common/security/SecurityProperties.java"),
  ("security/PasswordEncoderConfig.java", "common/security/PasswordEncoderConfig.java"),
  ("security/RateLimitingConfig.java", "common/security/RateLimitingConfig.java"),
  ("security/SecurityConfiguration.java", "common/security/SecurityConfiguration.java"),
  ("security/CustomBearerTokenAuthenticationEntryPoint.java", "common/security/CustomBearerTokenAuthenticationEntryPoint.java"),
  ("service/AuthCacheService.java", "common/cache/AuthCacheService.java"),
  ("service/exception/AuthenticationException.java", "common/exception/AuthenticationException.java"),
  ("service/exception/ResourceNotFoundException.java", "common/exception/ResourceNotFoundException.java"),
  ("service/AuthDatabaseService.java", "common/config/AuthDatabaseService.java"),
  ("service/AuthSecurityService.java", "common/config/AuthSecurityService.java"),
  ("controller/CacheController.java", "common/config/CacheController.java")]

/-- File system of the relocator: relative path (as written in the table)
→ file content; `none` when the file does not exist. -/
def FSP : Type := String → Option (List Char)

/-- `move_file` (lines 154-172): if the source is missing, warn and return
False; otherwise make the destination directories (implicit in a path-keyed
map) and copy content and metadata with `shutil.copy2`.  `cfail` models an
exception raised by the copy, caught by the except block (returns False). -/
def move_file (fs : FSP) (cfail : String → Bool) (src dest : String) : FSP × Bool :=
  match fs src with
  | none => (fs, false)
  | some v =>
    if cfail dest then (fs, false)
    else ((fun q => if q = dest then some v else fs q), true)

/-- The move loop of `main` (lines 209-215), collecting each pair's
success/failure flag in order. -/
def migrate_files (cfail : String → Bool) : FSP → List (String × String) → FSP × List Bool
  | fs, [] => (fs, [])
  | fs, pr :: rest =>
    let r1 := move_file fs cfail pr.1 pr.2
    let r2 := migrate_files cfail r1.1 rest
    (r2.1, r1.2 :: r2.2)

/-- `moved_count` of main: successes. -/
def moved_count (results : List Bool) : Nat := results.count true

/-- `failed_count` of main: failures. -/
def failed_count (results : List Bool) : Nat := results.count false

theorem count_true_add_count_false : ∀ (l : List Bool), l.count true + l.count false = l.length := by
  intro l
  induction l with
  | nil => rfl
  | cons b rest ih =>
    cases b <;> simp [List.count_cons, ih] <;> omega

theorem migrate_files_length (cfail : String → Bool) :
    ∀ (L : List (String × String)) (fs : FSP),
      (migrate_files cfail fs L).2.length = L.length := by
  intro L
  induction L with
  | nil => intro fs; rfl
  | cons pr rest ih => intro fs; simp [migrate_files, ih]

/-- Frame property of the move loop: paths that are no pair's destination
keep their content. -/
theorem migrate_files_frame (cfail : String → Bool) :
    ∀ (L : List (String × String)) (fs : FSP) (q : String),
      q ∉ L.map Prod.snd → (migrate_files cfail fs L).1 q = fs q := by
  intro L
  induction L with
  | nil => intro fs q _; rfl
  | cons pr rest ih =>
    intro fs q hq
    rw [List.map_cons] at hq
    have hq1 : q ≠ pr.2 := fun he => hq (by rw [he]; exact List.mem_cons_self _ _)
    have hq2 : q ∉ rest.map Prod.snd := fun hm => hq (List.mem_cons_of_mem _ hm)
    show (migrate_files cfail (move_file fs cfail pr.1 pr.2).1 rest).1 q = fs q
    rw [ih _ q hq2]
    rw [move_file]
    cases fs pr.1 with
    | none => rfl
    | some v =>
      by_cases hc : cfail pr.2 = true
      · simp [hc]
      · simp only [Bool.not_eq_true] at hc
        simp [hc, hq1]

/-- Per-pair behaviour of the move loop: with sources never equal to
destinations and distinct destinations, pair `j` succeeds exactly when its
source exists and its copy does not fail, and on success the destination
holds the source's content at the end of the loop. -/
theorem migrate_files_spec (cfail : String → Bool) :
    ∀ (L : List (String × String)) (fs : FSP),
      (∀ pr ∈ L, ∀ pr2 ∈ L, pr.1 ≠ pr2.2) →
      (L.map Prod.snd).Nodup →
      ∀ j (h : j < L.length),
        (migrate_files cfail fs L).2.get? j
          = some ((fs (L.get ⟨j, h⟩).1).isSome && !cfail (L.get ⟨j, h⟩).2) ∧
        (∀ v, fs (L.get ⟨j, h⟩).1 = some v → cfail (L.get ⟨j, h⟩).2 = false →
          (migrate_files cfail fs L).1 (L.get ⟨j, h⟩).2 = some v) := by
  intro L
  induction L with
  | nil => intro fs _ _ j h; simp at h
  | cons pr rest ih =>
    intro fs hdisj hnodup j h
    have hdisj' : ∀ a ∈ rest, ∀ b ∈ rest, a.1 ≠ b.2 := fun a ha b hb =>
      hdisj a (List.mem_cons_of_mem _ ha) b (List.mem_cons_of_mem _ hb)
    rw [List.map_cons, List.nodup_cons] at hnodup
    obtain ⟨hd2, hnodup'⟩ := hnodup
    have hsplit : migrate_files cfail fs (pr :: rest)
        = ((migrate_files cfail (move_file fs cfail pr.1 pr.2).1 rest).1,
           (move_file fs cfail pr.1 pr.2).2 ::
             (migrate_files cfail (move_file fs cfail pr.1 pr.2).1 rest).2) := rfl
    cases j with
    | zero =>
      have hget : (pr :: rest).get ⟨0, h⟩ = pr := rfl
      rw [hget]
      constructor
      · rw [hsplit]
        simp only [List.get?_cons_zero, Option.some.injEq]
        rw [move_file]
        cases hv : fs pr.1 with
        | none => simp
        | some v =>
          by_cases hc : cfail pr.2 = true <;> simp [hc]
      · intro v hv hc
        rw [hsplit]
        show (migrate_files cfail (move_file fs cfail pr.1 pr.2).1 rest).1 pr.2 = some v
        rw [migrate_files_frame cfail rest _ _ hd2]
        rw [move_file, hv, hc]
        simp
    | succ i =>
      have hi : i < rest.length := by simpa using h
      have hget : (pr :: rest).get ⟨i + 1, h⟩ = rest.get ⟨i, hi⟩ := rfl
      rw [hget]
      have hne : (rest.get ⟨i, hi⟩).1 ≠ pr.2 :=
        hdisj _ (List.mem_cons_of_mem _ (rest.get_mem _ _)) pr (List.mem_cons_self _ _)
      have hfs1 : (move_file fs cfail pr.1 pr.2).1 (rest.get ⟨i, hi⟩).1
          = fs (rest.get ⟨i, hi⟩).1 := by
        rw [move_file]
        cases fs pr.1 with
        | none => rfl
        | some v =>
          show (if cfail pr.2 = true then (fs, false)
              else (fun q => if q = pr.2 then some v else fs q, true)).1
              (rest.get ⟨i, hi⟩).1 = fs (rest.get ⟨i, hi⟩).1
          by_cases hc : cfail pr.2 = true
          · rw [if_pos hc]
          · rw [if_neg hc]
            show (if (rest.get ⟨i, hi⟩).1 = pr.2 then some v else fs (rest.get ⟨i, hi⟩).1)
              = fs (rest.get ⟨i, hi⟩).1
            rw [if_neg hne]
      have hrec := ih (move_file fs cfail pr.1 pr.2).1 hdisj' hnodup' i hi
      constructor
      · rw [hsplit]
        simp only [List.get?_cons_succ]
        rw [hrec.1, hfs1]
      · intro v hv hc
        rw [hsplit]
        show (migrate_files cfail (move_file fs cfail pr.1 pr.2).1 rest).1
          ((rest.get ⟨i, hi⟩).2) = some v
        exact hrec.2 v (by rw [hfs1]; exact hv) hc

/-! ### The relocator's declaration-rewrite phase (migrate_to_modules.py, lines 174-229)

`update_package_declaration` derives the new package name from the file's
path relative to BASE_PATH (`rel_path.parent.parts` joined with dots after
the fixed root `com.demo.auth.`) and runs

    re.sub(r'^package\s+com\.demo\.auth\.[^;]+;', f'package ...;', content,
           flags=re.MULTILINE)

which replaces EVERY match anchored at a line start.  The scanner below
walks the text character by character; `atStart` records whether the current
position is the start of the string or follows a newline — exactly the
positions where the MULTILINE `^` matches.  `\s+` and `[^;]+` are greedy and
each is followed by a pattern character its class excludes, so the regex
engine's match is exactly maximal munch, which `takeWhile` implements. -/

def pkgKw : List Char := "package".toList

def notSemi (c : Char) : Bool := !(c == ';')

/-- Strip a literal from the front of a text: `none` when the text does not
start with the literal (the pattern's literal pieces). -/
def stripPref : List Char → List Char → Option (List Char)
  | [], s => some s
  | _ :: _, [] => none
  | p :: ps, c :: cs => if c = p then stripPref ps cs else none

/-- One anchored attempt of the pattern: the rest of the text after the
match, or `none` when the position does not match. -/
def matchPkg (s : List Char) : Option (List Char) :=
  match stripPref pkgKw s with
  | none => none
  | some r1 =>
    if (r1.takeWhile isPyspace).isEmpty then none
    else
      match stripPref cdaStr (r1.dropWhile isPyspace) with
      | none => none
      | some r2 =>
        if (r2.takeWhile notSemi).isEmpty then none
        else
          match r2.dropWhile notSemi with
          | [] => none
          | _ :: rest => some rest

/-- `re.sub` with the MULTILINE anchor, by fuel (one unit per consumed
character or match); after a match the scan resumes at its end, which never
follows a newline (matches end in a semicolon). -/
def subPkgF (rep : List Char) : Nat → Bool → List Char → List Char
  | 0, _, s => s
  | _ + 1, _, [] => []
  | fuel + 1, atStart, c :: cs =>
    if atStart then
      match matchPkg (c :: cs) with
      | some rest => rep ++ subPkgF rep fuel false rest
      | none => c :: subPkgF rep fuel (decide (c = '\n')) cs
    else c :: subPkgF rep fuel (decide (c = '\n')) cs

/-- The scan from a given anchoring state, with just enough fuel. -/
def subPkgAt (rep : List Char) (atStart : Bool) (s : List Char) : List Char :=
  subPkgF rep s.length atStart s

/-- The full substitution: position 0 is a line start. -/
def subPkg (rep s : List Char) : List Char := subPkgAt rep true s

/-- Whether the text has any anchored match of the declaration pattern. -/
def hasPkgMatch : Bool → List Char → Bool
  | _, [] => false
  | atStart, c :: cs =>
    if atStart then
      match matchPkg (c :: cs) with
      | some _ => true
      | none => hasPkgMatch (decide (c = '\n')) cs
    else hasPkgMatch (decide (c = '\n')) cs

/-- Split a relative path at '/' — Python's `Path.parts` for the relative
paths of the tables (no redundant separators). -/
def splitSlash : List Char → List (List Char)
  | [] => [[]]
  | c :: cs =>
    match splitSlash cs with
    | [] => [[c]]
    | p :: ps => if c = '/' then [] :: p :: ps else (c :: p) :: ps

def pathParts (p : String) : List String :=
  (splitSlash p.toList).map fun l => String.mk l

/-- Python's `".".join`. -/
def joinDots : List String → List Char
  | [] => []
  | [s] => s.toList
  | s :: t :: rest => s.toList ++ '.' :: joinDots (t :: rest)

/-- Lines 183-185: `new_package = "com.demo.auth." + ".".join(rel_path.parent.parts)`. -/
def derivedPackage (p : String) : List Char :=
  cdaStr ++ joinDots (pathParts p).dropLast

/-- `update_package_declaration` (lines 174-200) as a text transformation:
replace every line-anchored `package com.demo.auth...;` declaration by the
path-derived one (the file is written back unconditionally; a caught
read/write failure is modelled at the caller). -/
def update_package_declaration (p : String) (content : List Char) : List Char :=
  subPkg ("package ".toList ++ derivedPackage p ++ [';']) content

def javaSuffix : List Char := ".java".toList

def emptyStr : String := ""

/-- Line 222, `BASE_PATH.glob("modules/**/*.java") + BASE_PATH.glob("common/**/*.java")`:
a relative path is scanned by the declaration phase iff its first component
is `modules` or `common`, at least one component follows, and the file name
ends in `.java` (`**` matches zero or more directories). -/
def selectedPath (p : String) : Bool :=
  match pathParts p with
  | [] => false
  | d :: rest =>
    (d == "modules" || d == "common") && !rest.isEmpty
      && javaSuffix.isSuffixOf (rest.getLastD emptyStr).toList

/-- The declaration-update loop of `main` (lines 221-227), pointwise on the
file map: every existing file selected by the glob has its declarations
rewritten; `rfail` models a caught per-file read/write exception (the file
keeps its content); unselected paths are untouched. -/
def update_declarations (rfail : String → Bool) (fs : FSP) : FSP := fun p =>
  match fs p with
  | none => none
  | some content =>
    if selectedPath p && !rfail p then some (update_package_declaration p content)
    else some content

/-- The whole relocator run: the move loop over MIGRATIONS, then the
declaration-update phase. -/
def run_migration (cfail rfail : String → Bool) (fs : FSP) : FSP :=
  update_declarations rfail (migrate_files cfail fs MIGRATIONS).1

/-! ### Lemmas on the declaration scanner -/

theorem stripPref_self_append : ∀ (a u : List Char), stripPref a (a ++ u) = some u := by
  intro a
  induction a with
  | nil => intro u; rfl
  | cons c cs ih => intro u; simp [stripPref, ih]

theorem stripPref_length : ∀ (a s r : List Char), stripPref a s = some r →
    s.length = a.length + r.length := by
  intro a
  induction a with
  | nil =>
    intro s r h
    have : s = r := by simpa [stripPref] using h
    subst this
    simp
  | cons c cs ih =>
    intro s r h
    cases s with
    | nil => exact absurd h (by simp [stripPref])
    | cons d ds =>
      by_cases hd : d = c
      · have h2 : stripPref cs ds = some r := by
          simpa [stripPref, hd] using h
        have := ih ds r h2
        simp [List.length_cons, this]
        omega
      · exact absurd h (by simp [stripPref, hd])

theorem dropWhile_len_le (f : Char → Bool) : ∀ (s : List Char),
    (s.dropWhile f).length ≤ s.length := by
  intro s
  induction s with
  | nil => simp
  | cons c cs ih =>
    rw [List.dropWhile_cons]
    by_cases hc : f c = true
    · rw [if_pos hc]
      exact le_trans ih (Nat.le_succ _)
    · rw [if_neg hc]

theorem takeWhile_append_sat (f : Char → Bool) :
    ∀ (a : List Char) (d : Char) (v : List Char),
      (∀ c ∈ a, f c = true) → f d = false →
      (a ++ d :: v).takeWhile f = a ∧ (a ++ d :: v).dropWhile f = d :: v := by
  intro a
  induction a with
  | nil =>
    intro d v _ hd
    constructor
    · simp [List.takeWhile_cons, hd]
    · simp [List.dropWhile_cons, hd]
  | cons c cs ih =>
    intro d v ha hd
    have hc : f c = true := ha c (List.mem_cons_self _ _)
    have ih2 := ih d v (fun y hy => ha y (List.mem_cons_of_mem _ hy)) hd
    constructor
    · simp [List.takeWhile_cons, hc, ih2.1]
    · simp [List.dropWhile_cons, hc, ih2.2]

/-- A position holding `package`, whitespace, `com.demo.auth.`, a nonempty
semicolon-free body and `;` matches, consuming exactly that. -/
theorem matchPkg_decomp (sp x rest : List Char)
    (hsp : sp ≠ []) (hsps : ∀ c ∈ sp, isPyspace c = true)
    (hx : x ≠ []) (hxs : ';' ∉ x) :
    matchPkg (pkgKw ++ (sp ++ (cdaStr ++ (x ++ ';' :: rest)))) = some rest := by
  have hxf : ∀ c ∈ x, notSemi c = true := by
    intro c hc
    have hne : ¬ c = ';' := fun he => hxs (he ▸ hc)
    simp [notSemi, hne]
  have hspe : sp.isEmpty = false := by
    cases sp with
    | nil => exact absurd rfl hsp
    | cons a b => rfl
  have hxe : x.isEmpty = false := by
    cases x with
    | nil => exact absurd rfl hx
    | cons a b => rfl
  have hcda : cdaStr ++ (x ++ ';' :: rest)
      = 'c' :: (("om.demo.auth.").toList ++ (x ++ ';' :: rest)) := rfl
  have h1 := stripPref_self_append pkgKw (sp ++ (cdaStr ++ (x ++ ';' :: rest)))
  have h2 := takeWhile_append_sat isPyspace sp 'c'
      (("om.demo.auth.").toList ++ (x ++ ';' :: rest)) hsps (by decide)
  have h3 := stripPref_self_append cdaStr (x ++ ';' :: rest)
  have h4 := takeWhile_append_sat notSemi x ';' rest hxf (by decide)
  unfold matchPkg
  simp only [h1]
  rw [hcda, h2.1, h2.2, hspe]
  simp only [Bool.false_eq_true, if_false]
  rw [← hcda]
  simp only [h3]
  rw [h4.1, h4.2, hxe]
  simp only [Bool.false_eq_true, if_false]

theorem matchPkg_some_length : ∀ (s rest : List Char), matchPkg s = some rest →
    rest.length < s.length := by
  intro s rest h
  unfold matchPkg at h
  cases h1 : stripPref pkgKw s with
  | none => rw [h1] at h; exact absurd h (by simp)
  | some r1 =>
    simp only [h1] at h
    by_cases he : (r1.takeWhile isPyspace).isEmpty
    · rw [if_pos he] at h; exact absurd h (by simp)
    · rw [if_neg he] at h
      cases h2 : stripPref cdaStr (r1.dropWhile isPyspace) with
      | none => rw [h2] at h; exact absurd h (by simp)
      | some r2 =>
        simp only [h2] at h
        by_cases he2 : (r2.takeWhile notSemi).isEmpty
        · rw [if_pos he2] at h; exact absurd h (by simp)
        · rw [if_neg he2] at h
          cases h3 : r2.dropWhile notSemi with
          | nil => rw [h3] at h; exact absurd h (by simp)
          | cons d ds =>
            simp only [h3] at h
            have hds : ds = rest := by simpa using h
            have l1 := stripPref_length pkgKw s r1 h1
            have l2 := stripPref_length cdaStr (r1.dropWhile isPyspace) r2 h2
            have l3 := dropWhile_len_le isPyspace r1
            have l4 : (r2.dropWhile notSemi).length ≤ r2.length := dropWhile_len_le notSemi r2
            rw [h3] at l4
            subst hds
            simp only [List.length_cons] at l4
            omega

theorem subPkgF_fuel (rep : List Char) :
    ∀ (f1 : Nat) (s : List Char) (f2 : Nat) (atStart : Bool),
      s.length ≤ f1 → s.length ≤ f2 →
      subPkgF rep f1 atStart s = subPkgF rep f2 atStart s := by
  intro f1
  induction f1 with
  | zero =>
    intro s f2 atStart h1 _
    have hs : s = [] := List.eq_nil_of_length_eq_zero (Nat.le_zero.mp h1)
    subst hs
    cases f2 <;> rfl
  | succ f ih =>
    intro s f2 atStart h1 h2
    cases s with
    | nil => cases f2 <;> rfl
    | cons c cs =>
      cases f2 with
      | zero => simp at h2
      | succ g =>
        have hc1 : cs.length ≤ f := by simp only [List.length_cons] at h1; omega
        have hc2 : cs.length ≤ g := by simp only [List.length_cons] at h2; omega
        cases atStart with
        | false =>
          show c :: subPkgF rep f (decide (c = '\n')) cs
              = c :: subPkgF rep g (decide (c = '\n')) cs
          rw [ih cs g (decide (c = '\n')) hc1 hc2]
        | true =>
          cases hm : matchPkg (c :: cs) with
          | none =>
            have e1 : subPkgF rep (f + 1) true (c :: cs)
                = (match matchPkg (c :: cs) with
                   | some rest => rep ++ subPkgF rep f false rest
                   | none => c :: subPkgF rep f (decide (c = '\n')) cs) := rfl
            have e2 : subPkgF rep (g + 1) true (c :: cs)
                = (match matchPkg (c :: cs) with
                   | some rest => rep ++ subPkgF rep g false rest
                   | none => c :: subPkgF rep g (decide (c = '\n')) cs) := rfl
            rw [e1, e2, hm, ih cs g (decide (c = '\n')) hc1 hc2]
          | some rest =>
            have hlen := matchPkg_some_length (c :: cs) rest hm
            have e1 : subPkgF rep (f + 1) true (c :: cs)
                = (match matchPkg (c :: cs) with
                   | some rest => rep ++ subPkgF rep f false rest
                   | none => c :: subPkgF rep f (decide (c = '\n')) cs) := rfl
            have e2 : subPkgF rep (g + 1) true (c :: cs)
                = (match matchPkg (c :: cs) with
                   | some rest => rep ++ subPkgF rep g false rest
                   | none => c :: subPkgF rep g (decide (c = '\n')) cs) := rfl
            have hr1 : rest.length ≤ f := by
              simp only [List.length_cons] at hlen
              omega
            have hr2 : rest.length ≤ g := by
              simp only [List.length_cons] at hlen
              omega
            rw [e1, e2, hm]
            show rep ++ subPkgF rep f false rest = rep ++ subPkgF rep g false rest
            rw [ih rest g false hr1 hr2]

/-- At an anchored matching position the scan emits the replacement and
resumes (un-anchored) at the match's end. -/
theorem subPkgAt_match (rep s rest : List Char) (hm : matchPkg s = some rest) :
    subPkgAt rep true s = rep ++ subPkgAt rep false rest := by
  cases s with
  | nil =>
    have h0 : matchPkg ([] : List Char) = none := rfl
    rw [h0] at hm
    exact absurd hm (by simp)
  | cons c cs =>
    have e1 : subPkgAt rep true (c :: cs)
        = (match matchPkg (c :: cs) with
           | some r => rep ++ subPkgF rep cs.length false r
           | none => c :: subPkgF rep cs.length (decide (c = '\n')) cs) := rfl
    have hlen := matchPkg_some_length (c :: cs) rest hm
    have hle : rest.length ≤ cs.length := by
      simp only [List.length_cons] at hlen
      omega
    rw [e1, hm]
    show rep ++ subPkgF rep cs.length false rest = rep ++ subPkgAt rep false rest
    rw [subPkgF_fuel rep cs.length rest rest.length false hle (le_refl _)]
    rfl

theorem subPkgAt_false_cons (rep : List Char) (c : Char) (cs : List Char) :
    subPkgAt rep false (c :: cs) = c :: subPkgAt rep (decide (c = '\n')) cs := rfl

theorem subPkgAt_nomatch_cons (rep : List Char) (c : Char) (cs : List Char)
    (hm : matchPkg (c :: cs) = none) :
    subPkgAt rep true (c :: cs) = c :: subPkgAt rep (decide (c = '\n')) cs := by
  have e1 : subPkgAt rep true (c :: cs)
      = (match matchPkg (c :: cs) with
         | some r => rep ++ subPkgF rep cs.length false r
         | none => c :: subPkgF rep cs.length (decide (c = '\n')) cs) := rfl
  rw [e1, hm]
  rfl

/-- Without any anchored match the substitution is the identity, whatever the
fuel. -/
theorem subPkgF_id (rep : List Char) :
    ∀ (s : List Char) (fuel : Nat) (atStart : Bool),
      hasPkgMatch atStart s = false → subPkgF rep fuel atStart s = s := by
  intro s
  induction s with
  | nil => intro fuel atStart _; cases fuel <;> rfl
  | cons c cs ih =>
    intro fuel atStart h
    cases fuel with
    | zero => rfl
    | succ f =>
      cases atStart with
      | false =>
        have h2 : hasPkgMatch (decide (c = '\n')) cs = false := h
        show c :: subPkgF rep f (decide (c = '\n')) cs = c :: cs
        rw [ih f (decide (c = '\n')) h2]
      | true =>
        have e : hasPkgMatch true (c :: cs)
            = (match matchPkg (c :: cs) with
               | some _ => true
               | none => hasPkgMatch (decide (c = '\n')) cs) := rfl
        cases hm : matchPkg (c :: cs) with
        | some r =>
          rw [e, hm] at h
          exact absurd h (by simp)
        | none =>
          rw [e, hm] at h
          have e1 : subPkgF rep (f + 1) true (c :: cs)
              = (match matchPkg (c :: cs) with
                 | some rest => rep ++ subPkgF rep f false rest
                 | none => c :: subPkgF rep f (decide (c = '\n')) cs) := rfl
          rw [e1, hm, ih f (decide (c = '\n')) h]

theorem subPkgAt_id (rep : List Char) (atStart : Bool) (s : List Char)
    (h : hasPkgMatch atStart s = false) : subPkgAt rep atStart s = s :=
  subPkgF_id rep s s.length atStart h

/-- A text that is one anchored declaration followed by match-free residue:
the declaration is replaced, the residue kept. -/
theorem subPkg_single (rep sp x rest : List Char)
    (hsp : sp ≠ []) (hsps : ∀ c ∈ sp, isPyspace c = true)
    (hx : x ≠ []) (hxs : ';' ∉ x) (hrest : hasPkgMatch false rest = false) :
    subPkg rep (pkgKw ++ (sp ++ (cdaStr ++ (x ++ ';' :: rest)))) = rep ++ rest := by
  have hm := matchPkg_decomp sp x rest hsp hsps hx hxs
  show subPkgAt rep true (pkgKw ++ (sp ++ (cdaStr ++ (x ++ ';' :: rest)))) = rep ++ rest
  rw [subPkgAt_match rep _ rest hm, subPkgAt_id rep false rest hrest]

/-- A text with two anchored declarations on consecutive lines: BOTH are
replaced (re.sub replaces every match, not only the first). -/
theorem subPkg_double (rep sp x sp2 y rest : List Char)
    (hsp : sp ≠ []) (hsps : ∀ c ∈ sp, isPyspace c = true)
    (hx : x ≠ []) (hxs : ';' ∉ x)
    (hsp2 : sp2 ≠ []) (hsps2 : ∀ c ∈ sp2, isPyspace c = true)
    (hy : y ≠ []) (hys : ';' ∉ y)
    (hrest : hasPkgMatch false rest = false) :
    subPkg rep (pkgKw ++ (sp ++ (cdaStr ++ (x ++ ';' ::
        ('\n' :: (pkgKw ++ (sp2 ++ (cdaStr ++ (y ++ ';' :: rest)))))))))
      = rep ++ '\n' :: (rep ++ rest) := by
  have hm1 := matchPkg_decomp sp x
      ('\n' :: (pkgKw ++ (sp2 ++ (cdaStr ++ (y ++ ';' :: rest))))) hsp hsps hx hxs
  have hm2 := matchPkg_decomp sp2 y rest hsp2 hsps2 hy hys
  show subPkgAt rep true (pkgKw ++ (sp ++ (cdaStr ++ (x ++ ';' ::
      ('\n' :: (pkgKw ++ (sp2 ++ (cdaStr ++ (y ++ ';' :: rest))))))))) = _
  rw [subPkgAt_match rep _ _ hm1]
  rw [subPkgAt_false_cons]
  rw [show (decide ('\n' = '\n')) = true from rfl]
  rw [subPkgAt_match rep _ rest hm2]
  rw [subPkgAt_id rep false rest hrest]

/-! ### Facts about the migration table's paths -/

theorem migrations_src_unselected : ∀ pr ∈ MIGRATIONS, selectedPath pr.1 = false := by
  intro pr hpr
  have hall : MIGRATIONS.all (fun q => !(selectedPath q.1)) = true := by decide
  have h := List.all_eq_true.mp hall pr hpr
  simpa using h

theorem migrations_dest_selected : ∀ pr ∈ MIGRATIONS, selectedPath pr.2 = true := by
  intro pr hpr
  have hall : MIGRATIONS.all (fun q => selectedPath q.2) = true := by decide
  exact List.all_eq_true.mp hall pr hpr

/-- The 64 destination paths are pairwise distinct. -/
theorem dests_nodup : (MIGRATIONS.map Prod.snd).Nodup := by decide

/-- No source path is a destination path: sources live outside `modules/`
and `common/`, destinations inside. -/
theorem migrations_disjoint : ∀ pr ∈ MIGRATIONS, ∀ pr2 ∈ MIGRATIONS, pr.1 ≠ pr2.2 := by
  intro pr hpr pr2 hpr2 he
  have h1 := migrations_src_unselected pr hpr
  have h2 := migrations_dest_selected pr2 hpr2
  rw [← he, h1] at h2
  exact absurd h2 (by simp)

/-- Paths the glob does not select are untouched by the declaration phase. -/
theorem update_declarations_out (rfail : String → Bool) (fs : FSP) (p : String)
    (h : selectedPath p = false) : update_declarations rfail fs p = fs p := by
  show (match fs p with
        | none => none
        | some content =>
          if selectedPath p && !rfail p then some (update_package_declaration p content)
          else some content) = fs p
  cases fs p with
  | none => rfl
  | some content => simp [h]

/-! ### The claims -/

/-- C1: (corrected) After the rewriter's text pass no occurrence of any old
pattern — exact or wildcard — remains, and every exact old import statement
is rewritten to its entry's new statement.  The wildcard import of an old
package, however, is rewritten to the new package of the FIRST table entry
having that old package, not to each entry's own new package as the claim
states — see the counterexample at the Role entry. -/
theorem import_rewrite_spec :
    (∀ s : List Char, ∀ q ∈ allSubs, hasMatch q.1 (update_imports_text s) = false)
    ∧ (∀ p ∈ IMPORT_MAPPINGS, update_imports_text (stmtOf p.1.toList) = stmtOf p.2.toList)
    ∧ (∀ p ∈ IMPORT_MAPPINGS, ∃ q, q ∈ IMPORT_MAPPINGS
        ∧ firstPkgEntry (dropLastDot p.1.toList) = some q
        ∧ dropLastDot q.1.toList = dropLastDot p.1.toList
        ∧ update_imports_text (stmtOf (dropLastDot p.1.toList ++ ['.', '*']))
            = stmtOf (dropLastDot q.2.toList ++ ['.', '*'])) :=
  ⟨fun s => update_imports_text_clean s, rewrite_exact_all, rewrite_wild_all⟩

theorem import_rewrite_spec_witness :
    update_imports_text (stmtOf (("com.demo.auth.entity.User").toList))
      = stmtOf (("com.demo.auth.modules.user.entity.User").toList) :=
  import_rewrite_spec.2.1
    (("com.demo.auth.entity.User", "com.demo.auth.modules.user.entity.User")) (by decide)

/-- C1 counterexample: by the claim, `import com.demo.auth.entity.*;` —
the wildcard of the Role entry's old package — should be replaced with the
Role entry's new package wildcard; the pass actually produces the User
entry's (the first entry of that package), which differs. -/
theorem import_rewrite_wild_counterexample :
    update_imports_text (stmtOf (dropLastDot (("com.demo.auth.entity.Role").toList) ++ ['.', '*']))
      = stmtOf (dropLastDot (("com.demo.auth.modules.user.entity.User").toList) ++ ['.', '*'])
    ∧ stmtOf (dropLastDot (("com.demo.auth.modules.user.entity.User").toList) ++ ['.', '*'])
      ≠ stmtOf (dropLastDot (("com.demo.auth.modules.role.entity.Role").toList) ++ ['.', '*']) := by
  constructor
  · obtain ⟨q, hqmem, hfind, hdrop, heq⟩ := rewrite_wild_all
        (("com.demo.auth.entity.Role", "com.demo.auth.modules.role.entity.Role")) (by decide)
    have hfind2 : firstPkgEntry (dropLastDot (("com.demo.auth.entity.Role").toList))
        = some q := hfind
    have heq2 : update_imports_text
          (stmtOf (dropLastDot (("com.demo.auth.entity.Role").toList) ++ ['.', '*']))
        = stmtOf (dropLastDot q.2.toList ++ ['.', '*']) := heq
    have hq : firstPkgEntry (dropLastDot (("com.demo.auth.entity.Role").toList))
        = some (("com.demo.auth.entity.User", "com.demo.auth.modules.user.entity.User")) := by
      decide
    rw [hfind2] at hq
    have hq2 := Option.some.inj hq
    rw [hq2] at heq2
    exact heq2
  · decide

/-- C3: the rewriter's text transformation is idempotent: one full pass
leaves no match of any of its patterns, so a second pass is the identity and
a second run of the script changes no file. -/
theorem update_imports_text_idempotent (s : List Char) :
    update_imports_text (update_imports_text s) = update_imports_text s := by
  rw [update_imports_text_eq (update_imports_text s)]
  exact applyAll_id (fun q hq => update_imports_text_clean s q hq)

/-- C4: contract of the move loop: each pair's reported flag is true exactly
when its source exists and its copy does not fail; a successful pair's
destination holds the source's content at the end of the loop; and every
pair yields a flag (one per table row), so a missing source or failed copy
never stops the batch. -/
theorem move_contract (cfail : String → Bool) (fs : FSP) (j : Nat)
    (h : j < MIGRATIONS.length) :
    (migrate_files cfail fs MIGRATIONS).2.get? j
        = some ((fs (MIGRATIONS.get ⟨j, h⟩).1).isSome && !cfail (MIGRATIONS.get ⟨j, h⟩).2)
    ∧ (∀ v, fs (MIGRATIONS.get ⟨j, h⟩).1 = some v →
        cfail (MIGRATIONS.get ⟨j, h⟩).2 = false →
        (migrate_files cfail fs MIGRATIONS).1 (MIGRATIONS.get ⟨j, h⟩).2 = some v)
    ∧ (migrate_files cfail fs MIGRATIONS).2.length = MIGRATIONS.length :=
  ⟨(migrate_files_spec cfail MIGRATIONS fs migrations_disjoint dests_nodup j h).1,
   (migrate_files_spec cfail MIGRATIONS fs migrations_disjoint dests_nodup j h).2,
   migrate_files_length cfail MIGRATIONS fs⟩

theorem move_contract_witness :
    (migrate_files (fun _ => false) (fun _ => none) MIGRATIONS).2.get? 0 = some false := by
  have h := (move_contract (fun _ => false) (fun _ => none) 0 (by decide)).1
  simpa using h

/-- C5: per-file failures are never fatal: with arbitrary per-file failure
oracles both batch loops still yield one flag per input file, and the printed
summary counts are bounded by (rewriter) or partition (relocator) the total;
the loops are total functions, so the programs run to completion. -/
theorem per_file_errors_nonfatal (wfail cfail : String → Bool) (fs : FS) (fsp : FSP)
    (files : List String) :
    (update_imports_files wfail fs files).2.length = files.length
    ∧ (update_imports_main fs wfail files).2 ≤ files.length
    ∧ moved_count (migrate_files cfail fsp MIGRATIONS).2
        + failed_count (migrate_files cfail fsp MIGRATIONS).2 = MIGRATIONS.length := by
  refine ⟨update_imports_files_length wfail files fs, ?_, ?_⟩
  · show (update_imports_files wfail fs files).2.count true ≤ files.length
    exact le_trans (count_true_le_length _)
      (le_of_eq (update_imports_files_length wfail files fs))
  · show (migrate_files cfail fsp MIGRATIONS).2.count true
        + (migrate_files cfail fsp MIGRATIONS).2.count false = MIGRATIONS.length
    rw [count_true_add_count_false, migrate_files_length]

/-- C7: the rewriter writes a file back exactly when the substitutions
changed its content: unreadable file or unchanged text → no write, reported
not updated; changed text (and no write failure) → the new text is at the
path, every other path untouched, reported updated. -/
theorem write_iff_changed (fs : FS) (wfail : String → Bool) (p : String) :
    (fs p = none → update_imports_in_file fs wfail p = (fs, false))
    ∧ (∀ content, fs p = some content → update_imports_text content = content →
        update_imports_in_file fs wfail p = (fs, false))
    ∧ (∀ content, fs p = some content → update_imports_text content ≠ content →
        wfail p = false →
        (update_imports_in_file fs wfail p).2 = true
        ∧ (update_imports_in_file fs wfail p).1 p = some (update_imports_text content)
        ∧ ∀ q, q ≠ p → (update_imports_in_file fs wfail p).1 q = fs q) := by
  refine ⟨?_, ?_, ?_⟩
  · intro h
    have e : update_imports_in_file fs wfail p = (fs, false) := by
      show (match fs p with
            | none => (fs, false)
            | some content =>
              if update_imports_text content = content then (fs, false)
              else if wfail p then (fs, false)
              else ((fun q => if q = p then some (update_imports_text content) else fs q),
                    true)) = (fs, false)
      rw [h]
    exact e
  · intro content hc heq
    have e : update_imports_in_file fs wfail p
        = (if update_imports_text content = content then (fs, false)
           else if wfail p then (fs, false)
           else ((fun q => if q = p then some (update_imports_text content) else fs q),
                 true)) := by
      show (match fs p with
            | none => (fs, false)
            | some content =>
              if update_imports_text content = content then (fs, false)
              else if wfail p then (fs, false)
              else ((fun q => if q = p then some (update_imports_text content) else fs q),
                    true)) = _
      rw [hc]
    rw [e, if_pos heq]
  · intro content hc hne hw
    have hwn : ¬ wfail p = true := by simp [hw]
    have e : update_imports_in_file fs wfail p
        = (if update_imports_text content = content then (fs, false)
           else if wfail p then (fs, false)
           else ((fun q => if q = p then some (update_imports_text content) else fs q),
                 true)) := by
      show (match fs p with
            | none => (fs, false)
            | some content =>
              if update_imports_text content = content then (fs, false)
              else if wfail p then (fs, false)
              else ((fun q => if q = p then some (update_imports_text content) else fs q),
                    true)) = _
      rw [hc]
    rw [e, if_neg hne, if_neg hwn]
    refine ⟨rfl, by simp, ?_⟩
    intro q hq
    simp [hq]

theorem write_iff_changed_witness :
    update_imports_in_file (fun _ => some ([] : List Char)) (fun _ => false) ("A.java")
      = ((fun _ => some ([] : List Char)), false) :=
  (write_iff_changed (fun _ => some ([] : List Char)) (fun _ => false) ("A.java")).2.1
    [] rfl (by decide)

/-- C2: (corrected) the declaration rewrite leaves a file without a matching
line identical, and a file whose single matching line heads otherwise
match-free text gets exactly that line replaced by the path-derived
declaration with the rest unchanged — but when SEVERAL lines match, re.sub
replaces every one of them, not only the first as the claim states (third
conjunct; see also the counterexample). -/
theorem update_package_declaration_matches (p : String) :
    (∀ content : List Char, hasPkgMatch true content = false →
        update_package_declaration p content = content)
    ∧ (∀ x rest : List Char, x ≠ [] → ';' ∉ x → hasPkgMatch false rest = false →
        update_package_declaration p (pkgKw ++ (' ' :: (cdaStr ++ (x ++ ';' :: rest))))
          = ("package ".toList ++ derivedPackage p ++ [';']) ++ rest)
    ∧ (∀ x y rest : List Char, x ≠ [] → ';' ∉ x → y ≠ [] → ';' ∉ y →
        hasPkgMatch false rest = false →
        update_package_declaration p (pkgKw ++ (' ' :: (cdaStr ++ (x ++ ';' ::
            ('\n' :: (pkgKw ++ (' ' :: (cdaStr ++ (y ++ ';' :: rest)))))))))
          = ("package ".toList ++ derivedPackage p ++ [';'])
              ++ '\n' :: (("package ".toList ++ derivedPackage p ++ [';']) ++ rest)) := by
  refine ⟨?_, ?_, ?_⟩
  · intro content h
    exact subPkgAt_id ("package ".toList ++ derivedPackage p ++ [';']) true content h
  · intro x rest hx hxs hrest
    exact subPkg_single ("package ".toList ++ derivedPackage p ++ [';']) [' '] x rest
      (by decide) (by decide) hx hxs hrest
  · intro x y rest hx hxs hy hys hrest
    exact subPkg_double ("package ".toList ++ derivedPackage p ++ [';']) [' '] x [' '] y rest
      (by decide) (by decide) hx hxs (by decide) (by decide) hy hys hrest

theorem update_package_declaration_matches_witness :
    update_package_declaration ("modules/user/entity/User.java")
        (pkgKw ++ (' ' :: (cdaStr ++ ((("entity").toList) ++ ';' :: (("\nclass User").toList)))))
      = ("package ".toList ++ derivedPackage ("modules/user/entity/User.java") ++ [';'])
          ++ (("\nclass User").toList) :=
  (update_package_declaration_matches ("modules/user/entity/User.java")).2.1
    (("entity").toList) (("\nclass User").toList) (by decide) (by decide) (by decide)

/-- C2 counterexample: a file with two matching declaration lines: both are
replaced, so the result differs from the claim's first-line-only rewrite. -/
theorem package_rewrite_counterexample :
    update_package_declaration ("modules/user/entity/User.java")
        (("package com.demo.auth.entity;\npackage com.demo.auth.service;\nclass U").toList)
      = (("package com.demo.auth.modules.user.entity;\npackage com.demo.auth.modules.user.entity;\nclass U").toList)
    ∧ (("package com.demo.auth.modules.user.entity;\npackage com.demo.auth.modules.user.entity;\nclass U").toList)
      ≠ (("package com.demo.auth.modules.user.entity;\npackage com.demo.auth.service;\nclass U").toList) := by
  constructor
  · decide
  · decide

/-- C6: the namespace written into a relocated file is derived from its
destination directory: for a file at relative path p, the declaration line is
replaced by `package com.demo.auth.` followed by the dot-joined components of
p's parent directory and a semicolon. -/
theorem derived_namespace_spec (p : String) (x rest : List Char)
    (hx : x ≠ []) (hxs : ';' ∉ x) (hrest : hasPkgMatch false rest = false) :
    update_package_declaration p (pkgKw ++ (' ' :: (cdaStr ++ (x ++ ';' :: rest))))
      = ("package ".toList ++ (cdaStr ++ joinDots (pathParts p).dropLast) ++ [';']) ++ rest
    ∧ derivedPackage p = cdaStr ++ joinDots (pathParts p).dropLast := by
  constructor
  · exact subPkg_single ("package ".toList ++ derivedPackage p ++ [';']) [' '] x rest
      (by decide) (by decide) hx hxs hrest
  · rfl

theorem derived_namespace_spec_witness :
    update_package_declaration ("modules/user/entity/User.java")
        (("package com.demo.auth.entity;\nclass User").toList)
      = (("package com.demo.auth.modules.user.entity;\nclass User").toList) := by
  have h := (derived_namespace_spec ("modules/user/entity/User.java") (("entity").toList)
      (("\nclass User").toList) (by decide) (by decide) (by decide)).1
  have e1 : (("package com.demo.auth.entity;\nclass User").toList)
      = pkgKw ++ (' ' :: (cdaStr ++ ((("entity").toList) ++ ';' :: (("\nclass User").toList)))) := by
    decide
  have e2 : ("package ".toList
        ++ (cdaStr ++ joinDots (pathParts ("modules/user/entity/User.java")).dropLast)
        ++ [';']) ++ (("\nclass User").toList)
      = (("package com.demo.auth.modules.user.entity;\nclass User").toList) := by decide
  rw [e1, h, e2]

/-- C8: the declaration phase scans only the `modules/` and `common/`
subtrees: a path whose first component is neither is never selected by the
glob and its content is unchanged by that phase. -/
theorem declaration_phase_frame (rfail : String → Bool) (fs : FSP) (p : String)
    (h1 : (pathParts p).headI ≠ ("modules" : String))
    (h2 : (pathParts p).headI ≠ ("common" : String)) :
    selectedPath p = false ∧ update_declarations rfail fs p = fs p := by
  have hsel : selectedPath p = false := by
    cases hp : pathParts p with
    | nil => simp [selectedPath, hp]
    | cons d rest =>
      rw [hp] at h1 h2
      simp only [List.headI_cons] at h1 h2
      simp [selectedPath, hp, h1, h2]
  exact ⟨hsel, update_declarations_out rfail fs p hsel⟩

theorem declaration_phase_frame_witness :
    selectedPath ("entity/User.java") = false
    ∧ update_declarations (fun _ => false) (fun _ => some ([] : List Char)) ("entity/User.java")
        = (fun _ => some ([] : List Char) : FSP) ("entity/User.java") :=
  declaration_phase_frame (fun _ => false) (fun _ => some ([] : List Char)) ("entity/User.java")
    (by decide) (by decide)

/-- C9: the relocator copies rather than moves: every source path of the
table keeps its original content through the whole run — the move loop
writes only destination paths (no source equals a destination) and the
declaration phase only touches the `modules/` and `common/` subtrees, where
no source lies. -/
theorem run_migration_preserves_sources (cfail rfail : String → Bool) (fs : FSP) :
    ∀ pr ∈ MIGRATIONS,
      (migrate_files cfail fs MIGRATIONS).1 pr.1 = fs pr.1
      ∧ run_migration cfail rfail fs pr.1 = fs pr.1 := by
  intro pr hpr
  have hsel := migrations_src_unselected pr hpr
  have hnodest : pr.1 ∉ MIGRATIONS.map Prod.snd := by
    intro hmem
    obtain ⟨q, hq, hq2⟩ := List.mem_map.mp hmem
    have h2 := migrations_dest_selected q hq
    rw [hq2, hsel] at h2
    exact absurd h2 (by simp)
  have hframe := migrate_files_frame cfail MIGRATIONS fs pr.1 hnodest
  refine ⟨hframe, ?_⟩
  show update_declarations rfail (migrate_files cfail fs MIGRATIONS).1 pr.1 = fs pr.1
  rw [update_declarations_out rfail _ pr.1 hsel, hframe]

theorem run_migration_preserves_sources_witness :
    (migrate_files (fun _ => false) (fun _ => some ([] : List Char)) MIGRATIONS).1
        (("entity/User.java", "modules/user/entity/User.java") : String × String).1
      = (fun _ => some ([] : List Char) : FSP)
        (("entity/User.java", "modules/user/entity/User.java") : String × String).1
    ∧ run_migration (fun _ => false) (fun _ => false) (fun _ => some ([] : List Char))
        (("entity/User.java", "modules/user/entity/User.java") : String × String).1
      = (fun _ => some ([] : List Char) : FSP)
        (("entity/User.java", "modules/user/entity/User.java") : String × String).1 :=
  run_migration_preserves_sources (fun _ => false) (fun _ => false)
    (fun _ => some ([] : List Char))
    (("entity/User.java", "modules/user/entity/User.java")) (by decide)

/-- C10: wildcard rewriting is first-entry-wins: the wildcard of a shared old
package is rewritten to the FIRST table entry's new package — entity.*
becomes the User module's entity package, never the role or permission one —
and in general every entry's old-package wildcard is rewritten to its
package's first entry's target. -/
theorem wildcard_first_entry :
    firstPkgEntry (dropLastDot (("com.demo.auth.entity.Role").toList))
      = some (("com.demo.auth.entity.User", "com.demo.auth.modules.user.entity.User"))
    ∧ update_imports_text (stmtOf ((("com.demo.auth.entity").toList) ++ ['.', '*']))
      = stmtOf ((("com.demo.auth.modules.user.entity").toList) ++ ['.', '*'])
    ∧ ∀ p ∈ IMPORT_MAPPINGS, ∃ q, q ∈ IMPORT_MAPPINGS
        ∧ firstPkgEntry (dropLastDot p.1.toList) = some q
        ∧ update_imports_text (stmtOf (dropLastDot p.1.toList ++ ['.', '*']))
            = stmtOf (dropLastDot q.2.toList ++ ['.', '*']) := by
  refine ⟨by decide, ?_, ?_⟩
  · obtain ⟨q, hqmem, hfind, hdrop, heq⟩ := rewrite_wild_all
        (("com.demo.auth.entity.User", "com.demo.auth.modules.user.entity.User")) (by decide)
    have hfind2 : firstPkgEntry (dropLastDot (("com.demo.auth.entity.User").toList))
        = some q := hfind
    have heq2 : update_imports_text
          (stmtOf (dropLastDot (("com.demo.auth.entity.User").toList) ++ ['.', '*']))
        = stmtOf (dropLastDot q.2.toList ++ ['.', '*']) := heq
    have hq : firstPkgEntry (dropLastDot (("com.demo.auth.entity.User").toList))
        = some (("com.demo.auth.entity.User", "com.demo.auth.modules.user.entity.User")) := by
      decide
    rw [hfind2] at hq
    have hq2 := Option.some.inj hq
    rw [hq2] at heq2
    have e1 : dropLastDot (("com.demo.auth.entity.User").toList)
        = ("com.demo.auth.entity").toList := by decide
    have e2 : dropLastDot ((("com.demo.auth.entity.User",
          "com.demo.auth.modules.user.entity.User") : String × String).2.toList)
        = ("com.demo.auth.modules.user.entity").toList := by decide
    rw [e1, e2] at heq2
    exact heq2
  · intro p hp
    obtain ⟨q, hqmem, hfind, hdrop, heq⟩ := rewrite_wild_all p hp
    exact ⟨q, hqmem, hfind, heq⟩

theorem wildcard_first_entry_witness :
    ∃ q, q ∈ IMPORT_MAPPINGS
      ∧ firstPkgEntry (dropLastDot ((("com.demo.auth.entity.Role",
            "com.demo.auth.modules.role.entity.Role") : String × String).1.toList)) = some q
      ∧ update_imports_text (stmtOf (dropLastDot ((("com.demo.auth.entity.Role",
            "com.demo.auth.modules.role.entity.Role") : String × String).1.toList) ++ ['.', '*']))
          = stmtOf (dropLastDot q.2.toList ++ ['.', '*']) :=
  wildcard_first_entry.2.2
    (("com.demo.auth.entity.Role", "com.demo.auth.modules.role.entity.Role")) (by decide)
